import Mathlib

/-!
# Verification of the go-interface-fuzzer core

A shallow embedding, over `List Char` strings, of the string utilities
(`strings.go` / `parser/strings.go`), the type grammar and its parser
(`interface.go`, `wanted.go`), the directive parser (`wanted.go`), the
reconciliation pass (`main.go`) and the code generator
(`codegen.go` and the template-based generator), together with proofs
about them.

Go strings are modelled as `List Char` (the sources only ever treat them
as character sequences).  Go's multiple return values `(a, b)` become
pairs, a `nil`-able `Type` becomes `Option Ty`, and a Go `error` result
becomes an `Option`/`Bool`/inductive error component.  Character class
functions (`unicode.IsSpace`, `unicode.IsLetter`, `unicode.ToUpper`) are
modelled on their ASCII fragment, which is the fragment exercised by the
tool's inputs (Go source text).
-/

set_option linter.unusedVariables false

/-- Go strings, modelled as lists of characters. -/
abbrev Str := List Char

/-! ## String helpers (`strings.go` / `parser/strings.go`) -/

/-- ASCII fragment of Go's `unicode.IsSpace`. -/
def goIsSpace (c : Char) : Bool :=
  c = ' ' || c = '\t' || c = '\n' || c = '\x0b' || c = '\x0c' || c = '\r'

/-- `strings.TrimLeftFunc s unicode.IsSpace`. -/
def trimLeftWS (s : Str) : Str := s.dropWhile goIsSpace

/-- `strings.TrimSpace` (trim whitespace from both ends). -/
def trimSpace (s : Str) : Str :=
  ((trimLeftWS s).reverse.dropWhile goIsSpace).reverse

/-- `strings.TrimLeft s " "` (trim only space characters from the left),
as used by `parseUnaryType`. -/
def trimLeftSpaces (s : Str) : Str := s.dropWhile (fun c => c = ' ')

/-- Loop of `removePrefix`, with the string length as structural fuel:
every iteration removes at least one character, so `s.length` steps
always reach the exit condition, and the base case can only be reached
with the empty string, where the exit condition holds anyway. -/
def removePrefixAux (pref : Str) : Nat → Str → Str × Nat
  | 0, s => (s, 0)
  | fuel + 1, s =>
      if pref ≠ [] ∧ pref.isPrefixOf s then
        let r := removePrefixAux pref fuel (s.drop pref.length)
        (r.1, r.2 + 1)
      else (s, 0)

/-- `removePrefix` from `strings.go`: remove a prefix from a string as
many times as possible, returning the remainder and the removal count.
(The Go loop would not terminate on an empty prefix; no caller passes
one, and the embedding returns the string unchanged in that case.) -/
def removePrefix (s pref : Str) : Str × Nat := removePrefixAux pref s.length s

/-- Loop of `removeSuffix`, with the string length as structural fuel
(same argument as `removePrefixAux`). -/
def removeSuffixAux (suff : Str) : Nat → Str → Str × Nat
  | 0, s => (s, 0)
  | fuel + 1, s =>
      if suff ≠ [] ∧ suff.isSuffixOf s then
        let r := removeSuffixAux suff fuel (s.take (s.length - suff.length))
        (r.1, r.2 + 1)
      else (s, 0)

/-- `removeSuffix` from `strings.go`: remove a suffix from a string as
many times as possible, returning the remainder and the removal count. -/
def removeSuffix (s suff : Str) : Str × Nat := removeSuffixAux suff s.length s

/-- `matchDelims` from `strings.go`: drop a prefix and suffix run and
report whether the two run lengths agree. -/
def matchDelims (s pref suff : Str) : Str × Bool :=
  let r1 := removePrefix s pref
  let r2 := removeSuffix r1.1 suff
  (r2.1, r1.2 == r2.2)

/-- `splitLines` helper: recursion over the characters. -/
def splitLinesAux : Str → Str → List Str
  | [], acc => [acc.reverse]
  | c :: rest, acc =>
      if c = '\n' then acc.reverse :: splitLinesAux rest []
      else splitLinesAux rest (c :: acc)

/-- `splitLines` from `strings.go`: `strings.Split s "\n"`. -/
def splitLines (s : Str) : List Str := splitLinesAux s []

/-- `matchPrefix` from `strings.go`: check for a prefix and, if present,
return the rest with whitespace after the prefix trimmed. -/
def matchPrefix (s pre : Str) : Str × Bool :=
  if pre.isPrefixOf s then (trimLeftWS (s.drop pre.length), true)
  else (s, false)

/-- `takeWhileIn` from `strings.go`: split at the first character not in
`allowed`. -/
def takeWhileIn (s allowed : Str) : Str × Str :=
  (s.takeWhile (fun c => allowed.contains c),
   s.dropWhile (fun c => allowed.contains c))

/-- Loop of `strings.Replace old new -1`: replace every
(non-overlapping, left-to-right) occurrence.  (Go inserts `new` between
characters when `old` is empty; no caller does that and the embedding
is the identity there.) -/
def replaceAllAux (old new : Str) : Nat → Str → Str
  | 0, s => s
  | fuel + 1, s =>
      if old ≠ [] ∧ old.isPrefixOf s then
        new ++ replaceAllAux old new fuel (s.drop old.length)
      else
        match s with
        | [] => []
        | c :: rest => c :: replaceAllAux old new fuel rest

/-- `strings.Replace old new -1` via `replaceAllAux`, with the string
length as structural fuel (every step consumes at least one
character). -/
def replaceAll (s old new : Str) : Str := replaceAllAux old new s.length s

/-- `indentLines` from `strings.go`: indent every non-blank line. -/
def indentLines (s indent : Str) : Str :=
  let lines := splitLines s
  let indented := indent ++ (List.intercalate ('\n' :: indent) lines)
  replaceAll indented (indent ++ [ '\n' ]) [ '\n' ]

/-- `filter` from `strings.go`: keep exactly the characters on which the
predicate holds (`strings.Map` dropping the rest). -/
def filterStr (allowed : Char → Bool) (s : Str) : Str := s.filter allowed

/-! ## The type model (`interface.go` / `parser/interface.go`) -/

/-- The `Type` interface with concrete types `ArrayType`, `BasicType`,
`ChanType`, `MapType`, `PointerType` and `QualifiedType`.  In the source
every compound type owns its component `Type`; a `nil` component can
only arise on parser error paths whose value is never read, so the Lean
sum has no `nil` and the parser uses `Option Ty` instead. -/
inductive Ty
  | basic (name : Str)
  | array (elementType : Ty)
  | chan (elementType : Ty)
  | map (keyType valueType : Ty)
  | pointer (targetType : Ty)
  | qualified (pack : Str) (ty : Ty)
deriving DecidableEq, Repr

/-- The `ToString` methods: `BasicType` renders as its name,
`ArrayType` as `[](t)`, `ChanType` as `chan (t)`, `MapType` as
`map[k](v)`, `PointerType` as `*(t)` and `QualifiedType` as `p.t`. -/
def Ty.toStr : Ty → Str
  | .basic name => name
  | .array t => "[](".toList ++ t.toStr ++ ")".toList
  | .chan t => "chan (".toList ++ t.toStr ++ ")".toList
  | .map k v => "map[".toList ++ k.toStr ++ "](".toList ++ v.toStr ++ ")".toList
  | .pointer t => "*(".toList ++ t.toStr ++ ")".toList
  | .qualified p t => p ++ ".".toList ++ t.toStr

/-! ## The type parser (`wanted.go` / `parser/wanted.go`) -/

/-- The allowed name characters of `parseName`. -/
def nameChars : Str :=
  "qwertyuiopasdfghjklzxcvbnmQWERTYUIOPASDFGHJKLZXCVBNM1234567890_-".toList

/-- The literal `"[]"`. -/
def litArr : Str := "[]".toList

/-- The literal `"chan"`. -/
def litChan : Str := "chan".toList

/-- The literal `"map["`. -/
def litMap : Str := "map[".toList

/-- The literal `"]"`. -/
def litCloseBr : Str := "]".toList

/-- The literal `"*"`. -/
def litStar : Str := "*".toList

/-- The literal `"("`. -/
def litOpen : Str := "(".toList

/-- The literal `")"`. -/
def litClose : Str := ")".toList

/-- `parseName`: take the maximal run of name characters, then trim
whitespace on the left of the remainder. -/
def parseName (s : Str) : Str × Str :=
  let r := takeWhileIn s nameChars
  (r.1, trimLeftWS r.2)

/-- Result of `parseType`: the Go triple `(Type, string, error)`.
`ty = none` models a `nil` (or never-read junk) `Type`; `err = true`
models a non-nil `error` (the message strings are never inspected by
callers and are dropped). -/
structure ParseRes where
  ty : Option Ty
  rest : Str
  err : Bool
deriving DecidableEq, Repr

mutual

/-- Fuelled core of `parseType` / `parseUnaryType` (`wanted.go` lines
375–468).  Each recursive call strictly shrinks the string, so
`length + 1` fuel (see `parseType`) never runs out on the paths
exercised below. -/
def parseTypeF : Nat → Str → ParseRes
  | 0, s => ⟨none, s, true⟩
  | fuel + 1, s =>
    -- Array type
    let m := matchPrefix s litArr
    if m.2 then parseUnaryTypeF fuel Ty.array m.1 s
    else
      -- Chan type
      let m := matchPrefix s litChan
      if m.2 then parseUnaryTypeF fuel Ty.chan m.1 s
      else
        -- Map type
        let m := matchPrefix s litMap
        let key := parseTypeF fuel m.1
        let mb := matchPrefix key.rest litCloseBr
        if m.2 && (mb.2 && !key.err) then
          match key.ty with
          | some kt => parseUnaryTypeF fuel (Ty.map kt) (key.rest.drop 1) s
          | none => ⟨none, s, true⟩   -- unreachable: success always carries a type
        else
          -- Pointer type
          let m := matchPrefix s litStar
          if m.2 then parseUnaryTypeF fuel Ty.pointer m.1 s
          else
            -- Type in (possibly 0) parentheses
            let d := matchDelims s litOpen litClose
            if d.2 then
              if d.1 = s then
                -- Basic type OR qualified type
                let n := parseName s
                let suff := trimLeftWS n.2
                match suff with
                | '.' :: afterDot =>
                    let n2 := parseName afterDot
                    ⟨some (Ty.qualified n.1 (Ty.basic n2.1)), trimLeftWS n2.2, false⟩
                | _ => ⟨some (Ty.basic n.1), suff, false⟩
              else parseTypeF fuel d.1
            else ⟨none, s, true⟩   -- mismatched parentheses error

/-- Fuelled `parseUnaryType`: strip spaces, strip a balanced delimiter
run, parse the operand.  On error the Go code returns `tycon(nil)` (a
wrapper around `nil` that no caller ever reads) and rest `""`; the
embedding returns `ty = none` there. -/
def parseUnaryTypeF : Nat → (Ty → Ty) → Str → Str → ParseRes
  | 0, _, s, _ => ⟨none, s, true⟩
  | fuel + 1, tycon, s, orig =>
    let noSpaces := trimLeftSpaces s
    let d := matchDelims noSpaces litOpen litClose
    if d.2 then
      let r := parseTypeF fuel d.1
      match r.ty, r.err with
      | some t, false => ⟨some (tycon t), r.rest, false⟩
      | _, _ => ⟨none, r.rest, true⟩
    else ⟨none, [], true⟩   -- mismatched parentheses error; rest stays ""

end

/-- `parseType` (`wanted.go` line 375): the fuel `s.length + 1` is an
upper bound on the recursion depth since every recursive call consumes
at least one character. -/
def parseType (s : Str) : ParseRes := parseTypeF (s.length + 1) s

/-! ## Directive-parser data model (`wanted.go`) -/

/-- A `Function`: name, parameter types, return types
(`interface.go`). -/
structure Function where
  name : Str
  parameters : List Ty
  returns : List Ty
deriving DecidableEq, Repr

/-- `Generator`: the name of a generator function plus its
statefulness flag (`wanted.go`). -/
structure Generator where
  isStateful : Bool
  name : Str
deriving DecidableEq, Repr

/-- `EitherFunctionOrMethod` (`wanted.go`).  The `Type` field may be a
Go `nil` on paths where it is never read, hence `Option Ty`; the
`Returns` field is never used by this tool and is omitted. -/
structure EitherFunctionOrMethod where
  isFunction : Bool
  name : Str
  type? : Option Ty
deriving DecidableEq, Repr

/-- `WantedFuzzer` (`wanted.go`).  The Go maps keyed by `ToString`'d
types are modelled as association lists accessed with `lookupTable`
(insertion conses, so a later insert shadows an earlier one exactly as
a map overwrite does; the maps are only ever read through lookups).
The `invariants` field is referenced by the template code generator
(`.Wanted.Invariants`) but its declaration is not among the provided
sources; it is modelled from the spec as the list of recorded invariant
expressions. -/
structure WantedFuzzer where
  interfaceName : Str
  reference : Function
  returnsValue : Bool
  comparison : List (Str × EitherFunctionOrMethod)
  generator : List (Str × Generator)
  generatorState : Str
  invariants : List Str
deriving DecidableEq, Repr

/-- The zero value of `WantedFuzzer` (`var fuzzer WantedFuzzer`). -/
def emptyWantedFuzzer : WantedFuzzer :=
  ⟨[], ⟨[], [], []⟩, false, [], [], [], []⟩

/-- Go map lookup `m[k]` (with ok-flag, as an `Option`) for the
association-list model. -/
def lookupTable {β : Type} : List (Str × β) → Str → Option β
  | [], _ => none
  | p :: t, a => if a = p.1 then some p.2 else lookupTable t a

/-- Go map insertion `m[k] = v` for the association-list model: the new
binding shadows any earlier one under `lookupTable`. -/
def mapInsert (m : List (Str × α)) (k : Str) (v : α) : List (Str × α) :=
  (k, v) :: m

/-- Errors produced by the directive parser.  Go carries formatted
message strings; only their identity matters to callers, so they are
modelled as constructors carrying the interesting payload. -/
inductive PErr
  | expectedName (line : Str)
  | leftOver (line rest : Str)
  | emptyKnownCorrect
  | typeParse
  | notFunctionOrMethod (line : Str)
  | expectedInitialState
  | noFuzzerFound
  | outOfFuel
deriving DecidableEq, Repr

/-- Result of a Go function that can return an error or panic:
`panicked` models a runtime panic (out-of-range index), `errored` a
non-nil returned `error`, `ok` a normal return. -/
inductive GoR (α : Type)
  | panicked
  | errored (e : PErr)
  | ok (a : α)
deriving DecidableEq, Repr

/-- The literal `"&"`. -/
def litAmp : Str := "&".toList

/-- The literal `"!"`. -/
def litBang : Str := "!".toList

/-- The literal `":"` as a character. -/
def litColon : Char := ':'

/-- `parseFuzzInterface` (`wanted.go`): a bare name with nothing left
over.  Returns the name together with an optional error, exactly as the
Go function returns both values. -/
def parseFuzzInterface (line : Str) : Str × Option PErr :=
  let r := parseName line
  if r.1 = [] then (r.1, some (PErr.expectedName line))
  else if r.2 ≠ [] then (r.1, some (PErr.leftOver line r.2))
  else (r.1, none)

/-- Fuelled argument-type loop of `parseKnownCorrect`
(`for rest != ""`).  The Go loop diverges if `parseType` succeeds
without consuming input (impossible for the directive inputs modelled
here); fuel exhaustion maps to an error. -/
def parseKCArgs : Nat → Str → GoR (List Ty)
  | 0, _ => .errored PErr.outOfFuel
  | _ + 1, [] => .ok []
  | fuel + 1, rest =>
      let r := parseType rest
      if r.err then .errored PErr.typeParse
      else
        match r.ty with
        | none => .errored PErr.typeParse
        | some argty =>
            match parseKCArgs fuel r.rest with
            | .ok args => .ok (argty :: args)
            | other => other

/-- `parseKnownCorrect` (`wanted.go`):
`[&] FunctionName [ArgType1 ... ArgTypeN]`, returning the reference
`Function` and the returns-value flag. -/
def parseKnownCorrect (line : Str) : GoR (Function × Bool) :=
  if line = [] then .errored PErr.emptyKnownCorrect
  else
    let m := matchPrefix line litAmp
    let returnsValue := m.2
    let r := parseName m.1
    match parseKCArgs (r.2.length + 1) r.2 with
    | .ok args => .ok (⟨r.1, args, []⟩, returnsValue)
    | .errored e => .errored e
    | .panicked => .panicked

/-- `parseFunctionOrMethod` (`wanted.go` lines 339–369):
`(Type:FunctionName | FunctionName Type)`, disambiguated by attempting
both a type parse and a name parse.  The Go code tests
`tyErr == nil && tyRest[0] == ':'`; when the type parse succeeds with
an empty remainder the index expression `tyRest[0]` is out of range and
the program panics, modelled by `.panicked`. -/
def parseFunctionOrMethod (line : Str) : GoR (EitherFunctionOrMethod × Str) :=
  let t := parseType line
  let n := parseName line
  if t.err = false then
    match t.rest with
    | [] => .panicked   -- Go evaluates tyRest[0] on the empty string
    | c :: _ =>
        if c = litColon then
          let r := parseName (t.rest.drop 1)
          .ok (⟨false, r.1, t.ty⟩, r.2)
        else if n.1 ≠ [] then
          let r := parseType n.2
          if r.err then .errored PErr.typeParse
          else .ok (⟨true, n.1, r.ty⟩, r.rest)
        else .errored (PErr.notFunctionOrMethod line)
  else if n.1 ≠ [] then
    let r := parseType n.2
    if r.err then .errored PErr.typeParse
    else .ok (⟨true, n.1, r.ty⟩, r.rest)
  else .errored (PErr.notFunctionOrMethod line)

/-- `parseComparison` (`wanted.go`): a function-or-method with nothing
left over; the map key is the parsed type. -/
def parseComparison (line : Str) : GoR (Ty × EitherFunctionOrMethod) :=
  match parseFunctionOrMethod line with
  | .panicked => .panicked
  | .errored e => .errored e
  | .ok (funcOrMeth, rest) =>
      if rest ≠ [] then .errored (PErr.leftOver line rest)
      else
        match funcOrMeth.type? with
        | some ty => .ok (ty, funcOrMeth)
        | none => .errored PErr.typeParse   -- unreachable: success carries a type

/-- `parseGenerator` (`wanted.go`): `[!] FunctionName Type`.  A
leftover remainder overwrites any type-parse error, exactly as in the
source. -/
def parseGenerator (line : Str) : GoR (Ty × Str × Bool) :=
  let m := matchPrefix line litBang
  let stateful := m.2
  let r := parseName m.1
  if r.1 = [] then .errored (PErr.expectedName line)
  else
    let t := parseType r.2
    if t.rest ≠ [] then .errored (PErr.leftOver line t.rest)
    else if t.err then .errored PErr.typeParse
    else
      match t.ty with
      | some ty => .ok (ty, r.1, stateful)
      | none => .errored PErr.typeParse   -- unreachable: success carries a type

/-- `parseGeneratorState` (`wanted.go`): any non-empty line, stored
verbatim. -/
def parseGeneratorState (line : Str) : GoR Str :=
  if line = [] then .errored PErr.expectedInitialState else .ok line

/-- The directive prefix `"@known correct:"`. -/
def litKnownCorrect : Str := "@known correct:".toList

/-- The directive prefix `"@comparison:"`. -/
def litComparison : Str := "@comparison:".toList

/-- The directive prefix `"@generator:"`. -/
def litGenerator : Str := "@generator:".toList

/-- The directive prefix `"@generator state:"`. -/
def litGeneratorState : Str := "@generator state:".toList

/-- The directive prefix `"@invariant:"`. -/
def litInvariant : Str := "@invariant:".toList

/-- The directive prefix `"@fuzz interface:"`. -/
def litFuzzInterface : Str := "@fuzz interface:".toList

/-- Modelled from the spec: the `@invariant` directive branch of
`parseLine`.  The template code generator consumes
`.Wanted.Invariants`, but the parsing code for the directive is not
among the provided sources; the spec says each invariant directive
records its opaque boolean expression verbatim in the harness spec. -/
def parseLineInvariant (line : Str) (fuzzer : WantedFuzzer) : GoR WantedFuzzer :=
  let m := matchPrefix line litInvariant
  if m.2 then .ok { fuzzer with invariants := fuzzer.invariants ++ [m.1] }
  else .ok fuzzer

/-- `parseLine` (`wanted.go` lines 169–218): handle one special-comment
line, mutating the wanted fuzzer; unknown lines are skipped.  The
source tests each directive prefix in sequence without `else`; as the
prefixes are mutually exclusive this is the same as the chain below.
The final `@invariant` step is the spec-modelled branch above. -/
def parseLine (line : Str) (fuzzer : WantedFuzzer) : GoR WantedFuzzer :=
  -- "@known correct:"
  let m := matchPrefix line litKnownCorrect
  if m.2 then
    match parseKnownCorrect m.1 with
    | .panicked => .panicked
    | .errored e => .errored e
    | .ok (fundecl, returnsValue) =>
        let retty := Ty.basic fuzzer.interfaceName
        .ok { fuzzer with
                reference := { fundecl with returns := [retty] },
                returnsValue := returnsValue }
  else
    -- "@comparison:"
    let m := matchPrefix line litComparison
    if m.2 then
      match parseComparison m.1 with
      | .panicked => .panicked
      | .errored e => .errored e
      | .ok (tyname, fundecl) =>
          .ok { fuzzer with
                  comparison := mapInsert fuzzer.comparison tyname.toStr fundecl }
    else
      -- "@generator:"
      let m := matchPrefix line litGenerator
      if m.2 then
        match parseGenerator m.1 with
        | .panicked => .panicked
        | .errored e => .errored e
        | .ok (tyname, genfunc, stateful) =>
            .ok { fuzzer with
                    generator := mapInsert fuzzer.generator tyname.toStr
                      ⟨stateful, genfunc⟩ }
      else
        -- "@generator state:"
        let m := matchPrefix line litGeneratorState
        if m.2 then
          match parseGeneratorState m.1 with
          | .panicked => .panicked
          | .errored e => .errored e
          | .ok state => .ok { fuzzer with generatorState := state }
        else
          -- "@invariant:" (spec-modelled)
          parseLineInvariant line fuzzer

/-- State of the scan in `WantedFuzzerFromCommentGroup`: the sealed
fuzzers, the fuzzer under construction, and whether we are inside a
fuzzer special comment. -/
structure CGState where
  fuzzers : List WantedFuzzer
  fuzzer : WantedFuzzer
  fuzzing : Bool
deriving Repr

/-- Line loop of `WantedFuzzerFromCommentGroup` (`wanted.go` lines
104–158).  The result triple is `(fuzzers, error?, logErr)`;
`none` for the whole result models a panic escaping the function.
The dead rebranch `if fuzzing` inside the not-fuzzing arm is kept
exactly as in the source. -/
def wfcgLines : List Str → CGState → Option (List WantedFuzzer × Option PErr × Bool)
  | [], st =>
      if st.fuzzing then some (st.fuzzers ++ [st.fuzzer], none, false)
      else some (st.fuzzers, some PErr.noFuzzerFound, false)
  | line :: rest, st =>
      let line := trimSpace line
      if st.fuzzing then
        match parseLine line st.fuzzer with
        | .panicked => none
        | .errored e => some (st.fuzzers, some e, true)
        | .ok f => wfcgLines rest { st with fuzzer := f }
      else
        let m := matchPrefix line litFuzzInterface
        if !m.2 then wfcgLines rest st
        else
          -- source: `if fuzzing { fuzzers = append(fuzzers, fuzzer) }`,
          -- unreachable here because this branch has `fuzzing == false`
          let fuzzers := if st.fuzzing then st.fuzzers ++ [st.fuzzer] else st.fuzzers
          let r := parseFuzzInterface m.1
          let fuzzer : WantedFuzzer := { emptyWantedFuzzer with interfaceName := r.1 }
          match r.2 with
          | some e => some (fuzzers, some e, true)
          | none => wfcgLines rest ⟨fuzzers, fuzzer, true⟩

/-- `WantedFuzzerFromCommentGroup` (`wanted.go`): scan the lines of all
comments of a group in order.  A comment group is modelled as the list
of its comments' texts. -/
def WantedFuzzerFromCommentGroup (group : List Str) :
    Option (List WantedFuzzer × Option PErr × Bool) :=
  wfcgLines (group.map splitLines).flatten ⟨[], emptyWantedFuzzer, false⟩

/-! ## Reconciliation (`main.go`) -/

/-- An `Interface`: a named, ordered list of method signatures. -/
structure Interface where
  name : Str
  functions : List Function
deriving DecidableEq, Repr

/-- `Fuzzer`: a reconciled pair of an interface declaration and a
wanted-fuzzer description.  (The template code generator names the two
projections `Name`/`Methods`; they are `interface.name` and
`interface.functions` here.) -/
structure Fuzzer where
  interface : Interface
  wanted : WantedFuzzer
deriving DecidableEq, Repr

/-- Reconciliation errors from `reconcileFuzzers` (`main.go`). -/
inductive RErr
  | alreadyHave (name : Str)     -- "Already have a fuzzer for '%s'."
  | couldntFind (name : Str)     -- "Couldn't find interface '%s' in this file."
deriving DecidableEq, Repr

/-- Inner interface loop of `reconcileFuzzers` for one wanted fuzzer:
fold over the declared interfaces, carrying `(fuzzers, errs, found)`. -/
def reconcileOne (wanted : WantedFuzzer) (st : List Fuzzer × List RErr × Bool)
    (iface : Interface) : List Fuzzer × List RErr × Bool :=
  if wanted.interfaceName ≠ iface.name then st
  else
    let dupErrs := (st.1.filter (fun ef => ef.interface.name = iface.name)).map
      (fun _ => RErr.alreadyHave wanted.interfaceName)
    (st.1 ++ [⟨iface, wanted⟩], st.2.1 ++ dupErrs, true)

/-- `reconcileFuzzers` (`main.go` lines 28–60): match every wanted
fuzzer against the declared interfaces, accumulating one
couldnt-find error per unmatched wanted fuzzer and one already-have
error per previously reconciled fuzzer with the same name. -/
def reconcileFuzzers (interfaces : List Interface) (wanteds : List WantedFuzzer) :
    List Fuzzer × List RErr :=
  let step := fun (st : List Fuzzer × List RErr) (wanted : WantedFuzzer) =>
    let r := interfaces.foldl (reconcileOne wanted) (st.1, st.2, false)
    if r.2.2 then (r.1, r.2.1)
    else (r.1, r.2.1 ++ [RErr.couldntFind wanted.interfaceName])
  wanteds.foldl step ([], [])

/-! ## Code generation (`codegen.go` and the template generator) -/

/-- Code-generation errors.  The source carries message strings
("stateful generator used when no initial state given",
"I don't know how to generate a <type>"); only their identity and the
offending type name matter. -/
inductive GenErr
  | statefulNoState
  | noGenerator (tyname : Str)
deriving DecidableEq, Repr

/-- The default-generator table of `DefaultGenerator` (`codegen.go`
lines 433–456), as an association list; the Go map literal has
pairwise-distinct keys so lookup order is irrelevant. -/
def defaultGenerators : List (Str × Str) :=
  [ ("bool".toList, "rand.Intn(2) == 0".toList),
    ("byte".toList, "byte(rand.Uint32())".toList),
    ("complex64".toList, "complex(float32(rand.NormFloat64()), float32(rand.NormFloat64()))".toList),
    ("complex128".toList, "complex(rand.NormFloat64(), rand.NormFloat64())".toList),
    ("float32".toList, "float32(rand.NormFloat64())".toList),
    ("float64".toList, "rand.NormFloat64()".toList),
    ("int".toList, "rand.Int()".toList),
    ("int8".toList, "int8(rand.Int())".toList),
    ("int16".toList, "int16(rand.Int())".toList),
    ("int32".toList, "rand.Int31()".toList),
    ("int64".toList, "rand.Int63()".toList),
    ("rune".toList, "rune(rand.Int31())".toList),
    ("uint".toList, "uint(rand.Uint32())".toList),
    ("uint8".toList, "uint8(rand.Uint32())".toList),
    ("uint16".toList, "uint16(rand.Uint32())".toList),
    ("uint32".toList, "rand.Uint32()".toList),
    ("uint64".toList, "(uint64(rand.Uint32()) << 32) | uint64(rand.Uint32())".toList) ]

/-- `DefaultGenerator` (`codegen.go`): map lookup with ok-flag, as an
`Option`. -/
def DefaultGenerator (tyname : Str) : Option Str :=
  lookupTable defaultGenerators tyname

/-- The literal `"error"`. -/
def litError : Str := "error".toList

/-- `MakeTypeGenerator` (`codegen.go` lines 406–430): code to fill a
variable with a random value of the given type.  The `fmt.Sprintf`
calls on constant formats are rendered as the corresponding
concatenations. -/
def MakeTypeGenerator (fuzzer : Fuzzer) (varname : Str) (ty : Ty) : Except GenErr Str :=
  let tyname := ty.toStr
  match lookupTable fuzzer.wanted.generator tyname with
  | some generator =>
      if generator.isStateful then
        if fuzzer.wanted.generatorState = [] then Except.error GenErr.statefulNoState
        else Except.ok (varname ++ ", state = ".toList ++ generator.name ++ "(rand, state)".toList)
      else Except.ok (varname ++ " = ".toList ++ generator.name ++ "(rand)".toList)
  | none =>
      match DefaultGenerator tyname with
      | some tygen => Except.ok (varname ++ " = ".toList ++ tygen)
      | none => Except.error (GenErr.noGenerator tyname)

/-- `DefaultComparison` (`codegen.go` lines 490–498) applied to the two
variable names: the `"error"` type compares nil-ness only, everything
else uses `reflect.DeepEqual`.  (The source returns the `%s`-format
string and the caller applies `fmt.Sprintf`; the embedding fuses the
two.) -/
def DefaultComparison (tyname e a : Str) : Str :=
  if tyname = litError then
    "((".toList ++ e ++ " == nil) == (".toList ++ a ++ " == nil))".toList
  else
    "reflect.DeepEqual(".toList ++ e ++ ", ".toList ++ a ++ ")".toList

/-- The comparison expression chosen by `MakeValueComparison`: the
default for the type, overridden by a registered comparator (method
form `expected.Name(actual)`, function form `Name(expected, actual)`). -/
def comparisonExpr (fuzzer : Fuzzer) (e a : Str) (tyname : Str) : Str :=
  let comparison := DefaultComparison tyname e a
  match lookupTable fuzzer.wanted.comparison tyname with
  | some tycomp =>
      if tycomp.isFunction then tycomp.name ++ "(".toList ++ e ++ ", ".toList ++ a ++ ")".toList
      else e ++ ".".toList ++ tycomp.name ++ "(".toList ++ a ++ ")".toList
  | none => comparison

/-- `MakeValueComparison` (`codegen.go` lines 462–487): the comparison
block for one return position.  The Go function's `error` result is the
second component; the source returns `nil` on every path. -/
def MakeValueComparison (fuzzer : Fuzzer) (expectedvar actualvar : Str) (ty : Ty)
    (errmsg : Str) : Str × Option GenErr :=
  let comparison := comparisonExpr fuzzer expectedvar actualvar ty.toStr
  ( "if !".toList ++ comparison
      ++ " \x7b\n\treturn fmt.Errorf(\"".toList ++ errmsg
      ++ "\\nexpected: %v\\nactual:   %v\", ".toList ++ expectedvar
      ++ ", ".toList ++ actualvar ++ ")\n\x7d".toList,
    none )

/-! ## Type-directed variable naming (`codegen.go` lines 500–551) -/

/-- ASCII fragment of `unicode.IsLetter`. -/
def goIsLetter (c : Char) : Bool :=
  (65 ≤ c.toNat && c.toNat ≤ 90) || (97 ≤ c.toNat && c.toNat ≤ 122)

/-- ASCII fragment of `unicode.ToUpper`. -/
def goToUpper (c : Char) : Char :=
  if 97 ≤ c.toNat && c.toNat ≤ 122 then Char.ofNat (c.toNat - 32) else c

/-- One decimal digit character. -/
def digitChar (d : Nat) : Char := Char.ofNat (48 + d)

/-- Little-endian digit loop of `itoa`; the value itself bounds the
digit count, so it doubles as structural fuel. -/
def itoaAux : Nat → Nat → Str
  | 0, _ => []
  | _ + 1, 0 => []
  | fuel + 1, n => digitChar (n % 10) :: itoaAux fuel (n / 10)

/-- `strconv.Itoa` for the naturals used as disambiguation indices. -/
def itoa (n : Nat) : Str :=
  if n = 0 then [ '0' ] else (itoaAux n n).reverse

/-- `TypeNameToVarName` (`codegen.go`): the letters-only projection of
the type's rendering, first letter capitalised, behind a prefix. -/
def TypeNameToVarName (pref : Str) (ty : Ty) : Str :=
  let name := filterStr goIsLetter ty.toStr
  let name :=
    match name with
    | [] => []
    | c :: cs => goToUpper c :: cs
  pref ++ name

/-- The indexed loop of `TypeListNames`: generate a name per type,
appending the element index on collision with an earlier name. -/
def typeListNamesFrom (pref : Str) : Nat → List Str → List Ty → List Str
  | _, names, [] => names
  | i, names, ty :: rest =>
      let name := TypeNameToVarName pref ty
      let name := if names.contains name then name ++ itoa i else name
      typeListNamesFrom pref (i + 1) (names ++ [name]) rest

/-- `TypeListNames` (`codegen.go` lines 522–538). -/
def TypeListNames (pref : Str) (tylist : List Ty) : List Str :=
  typeListNamesFrom pref 0 [] tylist

/-- The `"arg"` prefix. -/
def litArg : Str := "arg".toList

/-- The `"expected"` prefix. -/
def litExpected : Str := "expected".toList

/-- The `"actual"` prefix. -/
def litActual : Str := "actual".toList

/-- `FuncArgNames` (`codegen.go`). -/
def FuncArgNames (function : Function) : List Str :=
  TypeListNames litArg function.parameters

/-- `FuncActualNames` (`codegen.go`). -/
def FuncActualNames (function : Function) : List Str :=
  TypeListNames litActual function.returns

/-- `FuncExpectedNames` (`codegen.go`). -/
def FuncExpectedNames (function : Function) : List Str :=
  TypeListNames litExpected function.returns

/-! ## The template core-routine generator (`withReferenceTemplate`)

The template generator renders Go `text/template` strings.  The
embedding is the partial evaluation of the template engine on the
constant templates: every literal chunk of the template becomes a
string constant, every `{{...}}` action the corresponding function of
the data, and a `{{range}}` the concatenation of its body over the
list.  `runTemplateWith` applies `strings.TrimSpace` to the rendered
buffer, hence the outer `trimSpace`. -/

/-- `varV` of the template function map: comma-separate variables. -/
def varV (vars : List Str) : Str := List.intercalate (", ".toList) vars

/-- The placeholder token of invariant expressions. -/
def litPercentVar : Str := "%var".toList

/-- The reference-instance identifier substituted for the placeholder. -/
def litReference : Str := "reference".toList

/-- `makeFunctionCalls` via `functionCallTemplate`: declare argument
variables, fill them via `makeTypeGenerator`, and call both
implementations on them. -/
def makeFunctionCalls (fuzzer : Fuzzer) (function : Function) (funcA funcB : Str) :
    Except GenErr Str := do
  let argNames := FuncArgNames function
  let pairs := function.parameters.zip argNames
  let decls := (pairs.map (fun p => "\n\t".toList ++ p.2 ++ " ".toList ++ p.1.toStr)).flatten
  let gens ← pairs.mapM (fun p => MakeTypeGenerator fuzzer p.2 p.1)
  let expecteds := FuncExpectedNames function
  let actuals := FuncActualNames function
  let argsJoined := varV argNames
  let varPart :=
    if function.parameters.length = 0 then []
    else "var (".toList ++ decls ++ "\n)\n".toList
           ++ (gens.map (fun g => '\n' :: g)).flatten
  let retPart :=
    if expecteds.length = 0 then
      '\n' :: (funcA ++ "(".toList ++ argsJoined ++ ")\n".toList
        ++ funcB ++ "(".toList ++ argsJoined ++ ")\n".toList)
    else
      '\n' :: (varV expecteds ++ " := ".toList ++ funcA ++ "(".toList ++ argsJoined ++ ")\n".toList
        ++ varV actuals ++ " := ".toList ++ funcB ++ "(".toList ++ argsJoined ++ ")\n".toList)
  pure (trimSpace (varPart ++ "\n\n".toList ++ retPart))

/-- One `{{range $j, $ty := $function.Returns}}` chunk of
`withReferenceTemplate`: the discrepancy check for one return
position. -/
def returnCheck (fuzzer : Fuzzer) (function : Function) (ty : Ty) (e a : Str) : Str :=
  "\n\t\t\tif !".toList ++ comparisonExpr fuzzer e a ty.toStr
    ++ " \x7b\n\t\t\t\treturn fmt.Errorf(\"inconsistent result in ".toList ++ function.name
    ++ "\\nexpected: %v\\nactual:   %v\", ".toList ++ e ++ ", ".toList ++ a
    ++ ")\n\t\t\t\x7d".toList

/-- One `{{range $i, $function := .Methods}}` chunk of
`withReferenceTemplate`: the switch case for one method. -/
def methodCase (fuzzer : Fuzzer) (i : Nat) (function : Function) : Except GenErr Str := do
  let funcalls ← makeFunctionCalls fuzzer function
    (litReference ++ ".".toList ++ function.name) ("test.".toList ++ function.name)
  let checks :=
    (((function.returns.zip (FuncExpectedNames function)).zip (FuncActualNames function)).map
      (fun p => returnCheck fuzzer function p.1.1 p.1.2 p.2)).flatten
  pure ("\n\t\tcase ".toList ++ itoa i
    ++ ":\n\t\t\t// Call the method on both implementations\n".toList
    ++ indentLines funcalls ("\t\t\t".toList)
    ++ "\n\n\t\t\t// And check for discrepancies.".toList ++ checks)

/-- One `{{range $i, $invariant := .Wanted.Invariants}}` chunk of
`withReferenceTemplate`: re-evaluate one invariant against the
reference instance (`sed $invariant "%var" "reference"`), returning an
error naming the invariant's literal source text when it is false. -/
def invariantBlock (inv : Str) : Str :=
  "\n\n\t\tif !(".toList ++ replaceAll inv litPercentVar litReference
    ++ ") \x7b\n\t\t\treturn errors.New(\"invariant violated: ".toList ++ inv
    ++ "\")\n\t\t\x7d\n".toList

/-- The invariant section of `withReferenceTemplate`: the range chunks
appended in order, as the template engine does. -/
def invariantSection (invs : List Str) : Str :=
  invs.foldl (fun acc inv => acc ++ invariantBlock inv) []

/-- The constant head of the generated core routine up to the interface
name uses. -/
def coreHead (name : Str) (stateInit : Str) (count : Nat) : Str :=
  "func Fuzz".toList ++ name ++ "With(reference ".toList ++ name
    ++ ", test ".toList ++ name ++ ", rand *rand.Rand, maxops uint) error \x7b\n".toList
    ++ stateInit
    ++ "\tfor i := uint(0); i < maxops; i++ \x7b\n\t\t// Pick a random number between 0 and the number of methods of the interface. Then do that method on\n\t\t// both, check for discrepancy, and bail out on error. Simple!\n\n\t\tactionToPerform := rand.Intn(".toList
    ++ itoa count ++ ")\n\n\t\tswitch actionToPerform \x7b ".toList

/-- The constant tail of the generated core routine after the invariant
section. -/
def coreTail : Str := "\n\t\x7d\n\n\treturn nil\n\x7d".toList

/-- `CodegenWithReference` via `withReferenceTemplate` (`part_005`
lines 111–145): the core differential routine.  The per-iteration loop
runs the switch over the methods and then the invariant checks; a
`makeTypeGenerator` error aborts generation. -/
def CodegenWithReference (fuzzer : Fuzzer) : Except GenErr Str := do
  let name := fuzzer.interface.name
  let state := fuzzer.wanted.generatorState
  let cases ← (fuzzer.interface.functions.enum.mapM
    (fun p => methodCase fuzzer p.1 p.2))
  let stateInit :=
    if state = [] then []
    else "\t// Create initial state\n\tstate := ".toList ++ state ++ "\n\n".toList
  pure (trimSpace (
    '\n' :: coreHead name stateInit fuzzer.interface.functions.length
      ++ cases.flatten
      ++ "\n\t\t\x7d ".toList
      ++ invariantSection fuzzer.wanted.invariants
      ++ coreTail))

/-! ## Predicates used by the round-trip and naming theorems -/

/-- Every character of `n` is one of `parseName`'s name characters. -/
def goodNameChars (n : Str) : Prop := ∀ c ∈ n, nameChars.contains c = true

/-- A plain name: made of name characters and not starting with the
reserved word `chan` (which `parseType` would consume as a channel
constructor). -/
def goodName (n : Str) : Prop :=
  goodNameChars n ∧ litChan.isPrefixOf n = false

/-- Leaf shapes of the type grammar over plain names: bare names and
package-qualified names. -/
def Leafy (t : Ty) : Prop :=
  (∃ n, t = Ty.basic n ∧ goodName n) ∨
  (∃ p q, t = Ty.qualified p (Ty.basic q) ∧ goodName p ∧ goodNameChars q)

/-- `t` round-trips: parsing its rendering succeeds, consumes the whole
string and returns `t` itself (hence renders back to the same
string). -/
def roundTrips (t : Ty) : Prop :=
  parseType t.toStr = ⟨some t, [], false⟩

/-- ASCII decimal digit test. -/
def isDigitChar (c : Char) : Bool := 48 ≤ c.toNat && c.toNat ≤ 57

/-- Strings without decimal digits (variable-name bases). -/
def digitFree (s : Str) : Prop := ∀ c ∈ s, isDigitChar c = false

/-- Shape invariant of the names accumulated by `typeListNamesFrom`
before index `k`: each is either a digit-free base name behind the
prefix, or such a base with the decimal rendering of an index `< k`
appended. -/
def NameShape (pref : Str) (k : Nat) (x : Str) : Prop :=
  (digitFree x ∧ ∃ t, x = pref ++ t) ∨
  (∃ j, j < k ∧ ∃ b, digitFree b ∧ (∃ t, b = pref ++ t) ∧ x = b ++ itoa j)

/-- Specification-level reconciliation, written from the amended claim:
each wanted fuzzer is looked up among the declarations; absence appends
one couldnt-find error; presence appends one fuzzer plus one
already-have error per previously reconciled fuzzer with the same name;
processing always continues. -/
def reconcileSpec (interfaces : List Interface) :
    List WantedFuzzer → List Fuzzer → List RErr → List Fuzzer × List RErr
  | [], fz, es => (fz, es)
  | w :: ws, fz, es =>
      match interfaces.find? (fun i => w.interfaceName == i.name) with
      | none => reconcileSpec interfaces ws fz (es ++ [RErr.couldntFind w.interfaceName])
      | some i =>
          reconcileSpec interfaces ws (fz ++ [⟨i, w⟩])
            (es ++ (fz.filter (fun f => f.interface.name == w.interfaceName)).map
              (fun _ => RErr.alreadyHave w.interfaceName))

/-! ## Helper lemmas: prefix/suffix runs -/

theorem removePrefixAux_no (pref : Str) (fuel : Nat) (s : Str)
    (h : pref.isPrefixOf s = false) : removePrefixAux pref fuel s = (s, 0) := by
  cases fuel <;> simp [ removePrefixAux, h]

theorem removePrefix_no (s pref : Str) (h : pref.isPrefixOf s = false) :
    removePrefix s pref = (s, 0) := removePrefixAux_no pref s.length s h

theorem removeSuffixAux_no (suff : Str) (fuel : Nat) (s : Str)
    (h : suff.isSuffixOf s = false) : removeSuffixAux suff fuel s = (s, 0) := by
  cases fuel <;> simp [ removeSuffixAux, h]

theorem removeSuffix_no (s suff : Str) (h : suff.isSuffixOf s = false) :
    removeSuffix s suff = (s, 0) := removeSuffixAux_no suff s.length s h

theorem removePrefixAux_single (c : Char) (s : Str) :
    removePrefixAux [c] s.length s =
      (s.dropWhile (· == c), (s.takeWhile (· == c)).length) := by
  induction s with
  | nil => simp [ removePrefixAux]
  | cons x t ih =>
      show removePrefixAux [c] (t.length + 1) (x :: t) = _
      by_cases hx : x = c
      · subst hx
        simp [ removePrefixAux, List.isPrefixOf, ih]
      · have hbeq : (c == x) = false := by
          simp only [beq_eq_false_iff_ne, ne_eq]
          exact fun h => hx h.symm
        have hbeq2 : (x == c) = false := by simpa using hx
        simp [ removePrefixAux, List.isPrefixOf, hbeq, hbeq2]

theorem removePrefix_single (c : Char) (s : Str) :
    removePrefix s [c] =
      (s.dropWhile (· == c), (s.takeWhile (· == c)).length) :=
  removePrefixAux_single c s

theorem removeSuffixAux_single (c : Char) (r : Str) :
    removeSuffixAux [c] r.length r.reverse =
      ((r.dropWhile (· == c)).reverse, (r.takeWhile (· == c)).length) := by
  induction r with
  | nil => simp [ removeSuffixAux]
  | cons x t ih =>
      show removeSuffixAux [c] (t.length + 1) ((x :: t).reverse) = _
      by_cases hx : x = c
      · subst hx
        have hsuf : [x].isSuffixOf ((x :: t).reverse) = true := by
          simp [List.isSuffixOf, List.isPrefixOf]
        have htake : ((x :: t).reverse).take ((x :: t).reverse.length - 1) = t.reverse := by
          simp [List.reverse_cons]
        simp only [ removeSuffixAux, hsuf, ne_eq, List.cons_ne_nil, not_false_eq_true,
          true_and, if_true, List.length_singleton, htake]
        simp [ih]
      · have hbeq : (x == c) = false := by simpa using hx
        have hnsuf : ¬ ([c] <:+ t.reverse ++ [x]) := by
          rintro ⟨pre, hpre⟩
          have hlast := congrArg List.getLast? hpre
          simp [List.getLast?_concat] at hlast
          exact hx hlast.symm
        have hmain : removeSuffixAux [c] (t.length + 1) ((x :: t).reverse) =
            ((x :: t).reverse, 0) := by
          have hsuf : [c].isSuffixOf ((x :: t).reverse) = false := by
            rw [List.reverse_cons]
            by_contra hcon
            rw [Bool.not_eq_false] at hcon
            exact hnsuf (by simpa [List.isSuffixOf_iff_suffix] using hcon)
          exact removeSuffixAux_no [c] (t.length + 1) ((x :: t).reverse) hsuf
        rw [hmain]
        simp [hbeq]

theorem removeSuffix_single (c : Char) (s : Str) :
    removeSuffix s [c] =
      ((s.reverse.dropWhile (· == c)).reverse, (s.reverse.takeWhile (· == c)).length) := by
  have h := removeSuffixAux_single c s.reverse
  rw [ removeSuffix]
  simpa using h

/-- C10: for every string `s`, `matchDelims s "(" ")"` removes the
maximal run of leading `(` characters, then the maximal run of trailing
`)` characters from what remains, returns the trimmed string, and
reports balanced exactly when the two outer run lengths are equal — it
counts only the outermost prefix and suffix runs and checks no real
bracket nesting. -/
theorem matchDelims_outer_runs (s : Str) :
    matchDelims s litOpen litClose =
      ( ((s.dropWhile (· == '(')).reverse.dropWhile (· == ')')).reverse,
        (s.takeWhile (· == '(')).length ==
          ((s.dropWhile (· == '(')).reverse.takeWhile (· == ')')).length ) := by
  have hopen : litOpen = [ '(' ] := rfl
  have hclose : litClose = [ ')' ] := rfl
  rw [matchDelims, hopen, hclose, removePrefix_single, removeSuffix_single]

/-- C4 (failing input): on the comparator payload `somename` the type
parse of the whole line succeeds with an empty remainder, and
`parseFunctionOrMethod` evaluates `tyRest[0]` — an out-of-range index,
i.e. a runtime panic instead of the error the spec requires. -/
theorem parseFunctionOrMethod_bare_name_panics :
    parseFunctionOrMethod ("somename".toList) = GoR.panicked := by decide

/-- C3 (failing input): a comment group whose block contains two
harness-start directives yields a single harness spec (named by the
first directive) because once `fuzzing` is set, harness-start lines are
routed to `parseLine`, which ignores them; the seal-and-restart branch
of the source is unreachable. -/
theorem second_fuzz_directive_ignored :
    (WantedFuzzerFromCommentGroup
        [ "@fuzz interface: A\n@fuzz interface: B".toList ]).map
      (fun r => r.1.map (fun w => w.interfaceName)) =
      some [ "A".toList ] := by decide

/-! ## Claims C5, C6, C8: generator table, stateful generators, value
comparison -/

theorem lookup_isSome_iff {β : Type} (l : List (Str × β)) (a : Str) :
    (lookupTable l a).isSome = true ↔ a ∈ l.map Prod.fst := by
  induction l with
  | nil => simp [lookupTable]
  | cons p t ih =>
      have hc : lookupTable (p :: t) a = if a = p.1 then some p.2 else lookupTable t a := rfl
      rw [hc]
      by_cases h : a = p.1
      · rw [if_pos h]
        simp only [Option.isSome_some, List.map_cons, List.mem_cons, true_iff]
        exact Or.inl h
      · rw [if_neg h]
        simp only [List.map_cons, List.mem_cons]
        constructor
        · intro hm
          exact Or.inr (ih.mp hm)
        · rintro (h' | hm)
          · exact absurd h' h
          · exact ih.mpr hm

/-- C5 (amended): the default generator table covers exactly the
seventeen keys of `defaultGenerators` — `bool`, `byte`, `complex64`,
`complex128`, `float32`, `float64`, `int`, `int8`, `int16`, `int32`,
`int64`, `rune`, `uint`, `uint8`, `uint16`, `uint32`, `uint64` — and
for every canonical type string outside this table with no provided
generator, argument generation fails with the no-generator error for
that type at generation time. -/
theorem defaultGenerator_exact_table :
    (∀ s : Str, (DefaultGenerator s).isSome = true ↔ s ∈ defaultGenerators.map Prod.fst) ∧
    (∀ (fuzzer : Fuzzer) (v : Str) (ty : Ty),
        lookupTable fuzzer.wanted.generator ty.toStr = none →
        (MakeTypeGenerator fuzzer v ty = Except.error (GenErr.noGenerator ty.toStr) ↔
          ty.toStr ∉ defaultGenerators.map Prod.fst)) := by
  constructor
  · intro s
    exact lookup_isSome_iff defaultGenerators s
  · intro fuzzer v ty hnone
    cases hdg : DefaultGenerator ty.toStr with
    | some tygen =>
        have hmem : ty.toStr ∈ defaultGenerators.map Prod.fst := by
          rw [← lookup_isSome_iff defaultGenerators ty.toStr]
          rw [DefaultGenerator] at hdg
          simp [hdg]
        simp [MakeTypeGenerator, hnone, hdg, hmem]
    | none =>
        have hmem : ty.toStr ∉ defaultGenerators.map Prod.fst := by
          rw [← lookup_isSome_iff defaultGenerators ty.toStr]
          rw [DefaultGenerator] at hdg
          simp [hdg]
        simp [MakeTypeGenerator, hnone, hdg, hmem]

/-- C5 (counterexample): `complex64` has a default generator (as do
`complex128`, `int` and `uint`) although it is not in the claimed list,
so generation succeeds where the claim requires a no-generator
error. -/
theorem defaultGenerator_complex64_extra :
    MakeTypeGenerator ⟨⟨[], []⟩, emptyWantedFuzzer⟩ ("x".toList)
        (Ty.basic ("complex64".toList)) =
      Except.ok ("x = complex(float32(rand.NormFloat64()), float32(rand.NormFloat64()))".toList) ∧
    ("complex64".toList ∉
      [ "bool".toList, "byte".toList, "float32".toList, "float64".toList,
        "int8".toList, "int16".toList, "int32".toList, "int64".toList,
        "uint8".toList, "uint16".toList, "uint32".toList, "uint64".toList,
        "rune".toList ]) := ⟨rfl, by decide⟩

/-- C5 (witness): instances of both parts of the amended claim. -/
theorem defaultGenerator_exact_table_witness :
    ((DefaultGenerator ("bool".toList)).isSome = true) ∧
    (MakeTypeGenerator ⟨⟨[], []⟩, emptyWantedFuzzer⟩ ("x".toList)
        (Ty.basic ("Weird".toList)) =
      Except.error (GenErr.noGenerator ("Weird".toList))) := by
  constructor
  · exact (defaultGenerator_exact_table.1 ("bool".toList)).mpr (by decide)
  · exact (defaultGenerator_exact_table.2 ⟨⟨[], []⟩, emptyWantedFuzzer⟩ ("x".toList)
      (Ty.basic ("Weird".toList)) (by decide)).mpr (by decide)

/-- C6: if a type's registered generator is stateful and the harness
has no generator-state initialiser, generating the fill code for that
type returns the stateful-generator error value at generation time; if
an initialiser is present, the generated line threads the single state
variable `var, state = Gen(rand, state)`. -/
theorem statefulGenerator_requires_state (fuzzer : Fuzzer) (v : Str) (ty : Ty)
    (g : Generator) (hl : lookupTable fuzzer.wanted.generator ty.toStr = some g)
    (hs : g.isStateful = true) :
    (fuzzer.wanted.generatorState = [] →
      MakeTypeGenerator fuzzer v ty = Except.error GenErr.statefulNoState) ∧
    (fuzzer.wanted.generatorState ≠ [] →
      MakeTypeGenerator fuzzer v ty =
        Except.ok (v ++ ", state = ".toList ++ g.name ++ "(rand, state)".toList)) := by
  constructor <;> intro hst <;> simp [MakeTypeGenerator, hl, hs, hst]

/-- C6 (witness): a stateful generator for `int` with no initial state
errors; with the initialiser `uint(0)` it threads the state
variable. -/
theorem statefulGenerator_requires_state_witness :
    MakeTypeGenerator
        ⟨⟨[], []⟩, { emptyWantedFuzzer with
          generator := [("int".toList, ⟨true, "genInt".toList⟩)] }⟩
        ("x".toList) (Ty.basic ("int".toList)) =
      Except.error GenErr.statefulNoState ∧
    MakeTypeGenerator
        ⟨⟨[], []⟩, { emptyWantedFuzzer with
          generator := [("int".toList, ⟨true, "genInt".toList⟩)],
          generatorState := "uint(0)".toList }⟩
        ("x".toList) (Ty.basic ("int".toList)) =
      Except.ok ("x, state = genInt(rand, state)".toList) := by
  constructor
  · exact (statefulGenerator_requires_state _ _ _ ⟨true, "genInt".toList⟩
      (by decide) (by decide)).1 (by decide)
  · exact (statefulGenerator_requires_state _ _ _ ⟨true, "genInt".toList⟩
      (by decide) (by decide)).2 (by decide)

/-- C8: value comparison never fails for lack of a comparator: the
error component of `MakeValueComparison` is always nil, a registered
comparator is used in its method or function form, the canonical string
`error` falls back to nil-ness comparison, and every other type falls
back to deep structural equality. -/
theorem makeValueComparison_total_defaults (fuzzer : Fuzzer) (e a : Str) (ty : Ty)
    (msg : Str) :
    (MakeValueComparison fuzzer e a ty msg).2 = none ∧
    (∀ c, lookupTable fuzzer.wanted.comparison ty.toStr = some c → c.isFunction = false →
      comparisonExpr fuzzer e a ty.toStr =
        e ++ ".".toList ++ c.name ++ "(".toList ++ a ++ ")".toList) ∧
    (∀ c, lookupTable fuzzer.wanted.comparison ty.toStr = some c → c.isFunction = true →
      comparisonExpr fuzzer e a ty.toStr =
        c.name ++ "(".toList ++ e ++ ", ".toList ++ a ++ ")".toList) ∧
    (lookupTable fuzzer.wanted.comparison ty.toStr = none → ty.toStr = litError →
      comparisonExpr fuzzer e a ty.toStr =
        "((".toList ++ e ++ " == nil) == (".toList ++ a ++ " == nil))".toList) ∧
    (lookupTable fuzzer.wanted.comparison ty.toStr = none → ty.toStr ≠ litError →
      comparisonExpr fuzzer e a ty.toStr =
        "reflect.DeepEqual(".toList ++ e ++ ", ".toList ++ a ++ ")".toList) := by
  refine ⟨rfl, ?_, ?_, ?_, ?_⟩
  · intro c hc hf
    simp [comparisonExpr, hc, hf]
  · intro c hc hf
    simp [comparisonExpr, hc, hf]
  · intro hn he
    rw [he] at hn
    simp [comparisonExpr, DefaultComparison, hn, he]
  · intro hn he
    simp [comparisonExpr, DefaultComparison, hn, he]

/-- C8 (witness): the comparison block for the `error` return type of a
comparator-free harness compares nil-ness and carries no error. -/
theorem makeValueComparison_total_defaults_witness :
    (MakeValueComparison ⟨⟨[], []⟩, emptyWantedFuzzer⟩ ("e0".toList) ("a0".toList)
        (Ty.basic ("error".toList)) ("msg".toList)).2 = none ∧
    comparisonExpr ⟨⟨[], []⟩, emptyWantedFuzzer⟩ ("e0".toList) ("a0".toList)
        ("error".toList) = "((e0 == nil) == (a0 == nil))".toList ∧
    comparisonExpr ⟨⟨[], []⟩, emptyWantedFuzzer⟩ ("e0".toList) ("a0".toList)
        ("int".toList) = "reflect.DeepEqual(e0, a0)".toList := by
  refine ⟨(makeValueComparison_total_defaults ⟨⟨[], []⟩, emptyWantedFuzzer⟩
      ("e0".toList) ("a0".toList) (Ty.basic ("error".toList)) ("msg".toList)).1, ?_, ?_⟩
  · have h := (makeValueComparison_total_defaults ⟨⟨[], []⟩, emptyWantedFuzzer⟩
      ("e0".toList) ("a0".toList) (Ty.basic ("error".toList)) ("msg".toList)).2.2.2.1
      (by decide) (by decide)
    simpa using h
  · have h := (makeValueComparison_total_defaults ⟨⟨[], []⟩, emptyWantedFuzzer⟩
      ("e0".toList) ("a0".toList) (Ty.basic ("int".toList)) ("msg".toList)).2.2.2.2
      (by decide) (by decide)
    simpa using h

/-! ## Claim C9: reconciliation -/

theorem beq_decide (a b : Str) : (a == b) = decide (a = b) := by
  by_cases h : a = b <;> simp [h]

theorem foldl_reconcileOne_nomatch (w : WantedFuzzer) (interfaces : List Interface)
    (h : ∀ i ∈ interfaces, ¬ w.interfaceName = i.name)
    (st : List Fuzzer × List RErr × Bool) :
    interfaces.foldl (reconcileOne w) st = st := by
  induction interfaces generalizing st with
  | nil => rfl
  | cons i t ih =>
      have hi : w.interfaceName ≠ i.name := h i (List.mem_cons_self i t)
      have hstep : reconcileOne w st i = st := by
        simp [reconcileOne, hi]
      rw [List.foldl_cons, hstep]
      exact ih (fun j hj => h j (List.mem_cons_of_mem i hj)) st

theorem foldl_reconcileOne_find (w : WantedFuzzer) (interfaces : List Interface)
    (hnd : (interfaces.map Interface.name).Nodup) (fz : List Fuzzer) (es : List RErr) :
    interfaces.foldl (reconcileOne w) (fz, es, false) =
      (match interfaces.find? (fun i => w.interfaceName == i.name) with
       | none => (fz, es, false)
       | some i =>
           (fz ++ [⟨i, w⟩],
            es ++ (fz.filter (fun f => f.interface.name == w.interfaceName)).map
              (fun _ => RErr.alreadyHave w.interfaceName),
            true)) := by
  induction interfaces generalizing fz es with
  | nil => rfl
  | cons i t ih =>
      rw [List.map_cons, List.nodup_cons] at hnd
      by_cases h : w.interfaceName = i.name
      · have hbeq : (w.interfaceName == i.name) = true := by
          rw [beq_decide]
          simp [h]
        have hfind : (i :: t).find? (fun j => w.interfaceName == j.name) = some i := by
          rw [List.find?_cons]
          simp [hbeq]
        rw [hfind]
        have hstep : reconcileOne w (fz, es, false) i =
            (fz ++ [⟨i, w⟩],
             es ++ (fz.filter (fun f => f.interface.name == w.interfaceName)).map
               (fun _ => RErr.alreadyHave w.interfaceName),
             true) := by
          rw [reconcileOne]
          rw [if_neg (by simpa using h)]
          have hfeq : (fz.filter (fun ef => decide (ef.interface.name = i.name))) =
              (fz.filter (fun f => f.interface.name == w.interfaceName)) := by
            apply List.filter_congr
            intro f _
            rw [beq_decide, h]
          simp only [hfeq]
        rw [List.foldl_cons, hstep]
        apply foldl_reconcileOne_nomatch
        intro j hj heq
        have hmem : i.name ∈ t.map Interface.name := by
          rw [← h, heq]
          exact List.mem_map_of_mem Interface.name hj
        exact hnd.1 hmem
      · have hbeq : (w.interfaceName == i.name) = false := by
          rw [beq_decide]
          simp [h]
        have hfind : (i :: t).find? (fun j => w.interfaceName == j.name) =
            t.find? (fun j => w.interfaceName == j.name) := by
          rw [List.find?_cons]
          simp [hbeq]
        rw [hfind]
        have hstep : reconcileOne w (fz, es, false) i = (fz, es, false) := by
          simp [reconcileOne, h]
        rw [List.foldl_cons, hstep]
        exact ih hnd.2 fz es

theorem reconcileFoldAux (interfaces : List Interface)
    (hnd : (interfaces.map Interface.name).Nodup) :
    ∀ (ws : List WantedFuzzer) (fz : List Fuzzer) (es : List RErr),
    ws.foldl (fun (st : List Fuzzer × List RErr) (wanted : WantedFuzzer) =>
      let r := interfaces.foldl (reconcileOne wanted) (st.1, st.2, false)
      if r.2.2 then (r.1, r.2.1)
      else (r.1, r.2.1 ++ [RErr.couldntFind wanted.interfaceName])) (fz, es)
    = reconcileSpec interfaces ws fz es := by
  intro ws
  induction ws with
  | nil =>
      intro fz es
      rfl
  | cons w ws ih =>
      intro fz es
      rw [List.foldl_cons]
      have hr := foldl_reconcileOne_find w interfaces hnd fz es
      cases hfind : interfaces.find? (fun i => w.interfaceName == i.name) with
      | none =>
          rw [hfind] at hr
          rw [reconcileSpec, hfind]
          simp only [hr]
          exact ih fz (es ++ [RErr.couldntFind w.interfaceName])
      | some i =>
          rw [hfind] at hr
          rw [reconcileSpec, hfind]
          simp only [hr]
          exact ih (fz ++ [⟨i, w⟩]) _

/-- C9 (amended): with pairwise-distinct declared interface names,
reconciliation accumulates errors without short-circuiting — for every
wanted fuzzer whose interface name is absent it appends one
couldnt-find error, for every wanted fuzzer whose interface an earlier
reconciled fuzzer already covers it appends one already-have error per
such earlier fuzzer, and it always continues with the remaining wanted
fuzzers — i.e. it equals the specification recursion
`reconcileSpec`. -/
theorem reconcileFuzzers_eq_spec (interfaces : List Interface)
    (wanteds : List WantedFuzzer) (hnd : (interfaces.map Interface.name).Nodup) :
    reconcileFuzzers interfaces wanteds = reconcileSpec interfaces wanteds [] [] :=
  reconcileFoldAux interfaces hnd wanteds [] []

/-- C9 (counterexample): three wanted fuzzers for one declared
interface produce three already-have errors (1 for the second wanted
fuzzer, 2 for the third), not one error per duplicate wanted fuzzer
(which would be two). -/
theorem reconcileFuzzers_duplicate_error_count :
    (reconcileFuzzers [⟨ "A".toList, []⟩]
        [{ emptyWantedFuzzer with interfaceName := "A".toList },
         { emptyWantedFuzzer with interfaceName := "A".toList },
         { emptyWantedFuzzer with interfaceName := "A".toList }]).2 =
      [RErr.alreadyHave ("A".toList), RErr.alreadyHave ("A".toList),
       RErr.alreadyHave ("A".toList)] ∧
    ¬ ((reconcileFuzzers [⟨ "A".toList, []⟩]
        [{ emptyWantedFuzzer with interfaceName := "A".toList },
         { emptyWantedFuzzer with interfaceName := "A".toList },
         { emptyWantedFuzzer with interfaceName := "A".toList }]).2.length = 2) := by
  constructor
  · rfl
  · decide

/-- C9 (witness): the amended claim at a concrete declaration list and
wanted list (one absent name, one duplicated name). -/
theorem reconcileFuzzers_eq_spec_witness :
    reconcileFuzzers [⟨ "A".toList, []⟩]
        [{ emptyWantedFuzzer with interfaceName := "A".toList },
         { emptyWantedFuzzer with interfaceName := "B".toList },
         { emptyWantedFuzzer with interfaceName := "A".toList }] =
      reconcileSpec [⟨ "A".toList, []⟩]
        [{ emptyWantedFuzzer with interfaceName := "A".toList },
         { emptyWantedFuzzer with interfaceName := "B".toList },
         { emptyWantedFuzzer with interfaceName := "A".toList }] [] [] :=
  reconcileFuzzers_eq_spec _ _ (by decide)

/-! ## Claim C7: identifier synthesis -/

theorem charOfNat_toNat (k : Nat) (h1 : 48 ≤ k) (h2 : k ≤ 122) :
    (Char.ofNat k).toNat = k := by
  interval_cases k <;> decide

theorem goIsLetter_not_digit (c : Char) (h : goIsLetter c = true) :
    isDigitChar c = false := by
  simp only [goIsLetter, Bool.or_eq_true, Bool.and_eq_true, decide_eq_true_eq] at h
  simp only [isDigitChar, Bool.and_eq_false_iff, decide_eq_false_iff_not]
  omega

theorem goToUpper_not_digit (c : Char) (h : goIsLetter c = true) :
    isDigitChar (goToUpper c) = false := by
  rw [goToUpper]
  by_cases hlc : (97 ≤ c.toNat && c.toNat ≤ 122) = true
  · rw [if_pos hlc]
    simp only [Bool.and_eq_true, decide_eq_true_eq] at hlc
    have ht := charOfNat_toNat (c.toNat - 32) (by omega) (by omega)
    simp only [isDigitChar, ht, Bool.and_eq_false_iff, decide_eq_false_iff_not]
    omega
  · rw [if_neg hlc]
    exact goIsLetter_not_digit c h

theorem isDigitChar_digitChar (d : Nat) (h : d < 10) :
    isDigitChar (digitChar d) = true := by
  have ht := charOfNat_toNat (48 + d) (by omega) (by omega)
  simp only [digitChar, isDigitChar, ht, Bool.and_eq_true, decide_eq_true_eq]
  omega

theorem digitChar_inj (d e : Nat) (hd : d < 10) (he : e < 10)
    (h : digitChar d = digitChar e) : d = e := by
  have h1 := charOfNat_toNat (48 + d) (by omega) (by omega)
  have h2 := charOfNat_toNat (48 + e) (by omega) (by omega)
  have := congrArg Char.toNat h
  rw [digitChar, digitChar] at this
  omega

theorem itoaAux_eq (fuel : Nat) : ∀ n : Nat, n ≤ fuel →
    itoaAux fuel n = (Nat.digits 10 n).map digitChar := by
  induction fuel with
  | zero =>
      intro n hn
      have : n = 0 := Nat.le_zero.mp hn
      subst this
      simp [itoaAux]
  | succ fuel ih =>
      intro n hn
      cases n with
      | zero => simp [itoaAux]
      | succ m =>
          have hdiv : (m + 1) / 10 ≤ fuel := by
            have := Nat.div_lt_self (Nat.succ_pos m) (by omega : 1 < 10)
            omega
          rw [itoaAux, ih _ hdiv, Nat.digits_def' (by omega : 1 < 10) (Nat.succ_pos m)]
          · simp
          · omega

theorem itoa_eq_digits (n : Nat) :
    itoa n = if n = 0 then [ '0' ] else ((Nat.digits 10 n).map digitChar).reverse := by
  rw [itoa]
  by_cases h : n = 0
  · simp [h]
  · rw [if_neg h, if_neg h, itoaAux_eq n n (Nat.le_refl n)]

theorem itoa_ne_nil (n : Nat) : itoa n ≠ [] := by
  rw [itoa_eq_digits]
  by_cases h : n = 0
  · simp [h]
  · rw [if_neg h]
    simp [Nat.digits_ne_nil_iff_ne_zero.mpr h]

theorem itoa_all_digits (n : Nat) : ∀ c ∈ itoa n, isDigitChar c = true := by
  rw [itoa_eq_digits]
  by_cases h : n = 0
  · rw [if_pos h]
    intro c hc
    simp at hc
    subst hc
    decide
  · rw [if_neg h]
    intro c hc
    rw [List.mem_reverse, List.mem_map] at hc
    obtain ⟨d, hd, hdc⟩ := hc
    have hlt : d < 10 := Nat.digits_lt_base (by omega) hd
    rw [← hdc]
    exact isDigitChar_digitChar d hlt

theorem map_digitChar_inj : ∀ (l1 l2 : List Nat), (∀ d ∈ l1, d < 10) →
    (∀ d ∈ l2, d < 10) → l1.map digitChar = l2.map digitChar → l1 = l2 := by
  intro l1
  induction l1 with
  | nil =>
      intro l2 _ _ h
      cases l2 with
      | nil => rfl
      | cons d t => simp at h
  | cons d t ih =>
      intro l2 h1 h2 h
      cases l2 with
      | nil => simp at h
      | cons e u =>
          simp only [List.map_cons, List.cons.injEq] at h
          have hd : d = e := digitChar_inj d e (h1 d (by simp)) (h2 e (by simp)) h.1
          have ht : t = u := ih u (fun x hx => h1 x (by simp [hx]))
            (fun x hx => h2 x (by simp [hx])) h.2
          rw [hd, ht]

theorem itoa_inj (m n : Nat) (h : itoa m = itoa n) : m = n := by
  rw [itoa_eq_digits, itoa_eq_digits] at h
  by_cases hm : m = 0 <;> by_cases hn : n = 0
  · rw [hm, hn]
  · exfalso
    rw [if_pos hm, if_neg hn] at h
    have hrev := congrArg List.reverse h
    simp only [List.reverse_reverse] at hrev
    have hsing : (Nat.digits 10 n).map digitChar = [ '0' ] := by
      rw [← hrev]
      rfl
    cases hdig : Nat.digits 10 n with
    | nil => rw [hdig] at hsing; simp at hsing
    | cons d t =>
        rw [hdig] at hsing
        simp only [List.map_cons, List.cons.injEq, List.map_eq_nil_iff] at hsing
        have hlt : d < 10 := Nat.digits_lt_base (by omega) (by rw [hdig]; simp)
        have hd0 : d = 0 := by
          have := digitChar_inj d 0 hlt (by omega) (by rw [hsing.1]; rfl)
          exact this
        have hofd := Nat.ofDigits_digits 10 n
        rw [hdig, hsing.2, hd0] at hofd
        simp [Nat.ofDigits] at hofd
        exact hn hofd.symm
  · exfalso
    rw [if_neg hm, if_pos hn] at h
    have hrev := congrArg List.reverse h
    simp only [List.reverse_reverse] at hrev
    have hsing : (Nat.digits 10 m).map digitChar = [ '0' ] := by
      rw [hrev]
      rfl
    cases hdig : Nat.digits 10 m with
    | nil => rw [hdig] at hsing; simp at hsing
    | cons d t =>
        rw [hdig] at hsing
        simp only [List.map_cons, List.cons.injEq, List.map_eq_nil_iff] at hsing
        have hlt : d < 10 := Nat.digits_lt_base (by omega) (by rw [hdig]; simp)
        have hd0 : d = 0 := by
          have := digitChar_inj d 0 hlt (by omega) (by rw [hsing.1]; rfl)
          exact this
        have hofd := Nat.ofDigits_digits 10 m
        rw [hdig, hsing.2, hd0] at hofd
        simp [Nat.ofDigits] at hofd
        exact hm hofd.symm
  · rw [if_neg hm, if_neg hn] at h
    have hrev := congrArg List.reverse h
    simp only [List.reverse_reverse] at hrev
    have hdm : ∀ d ∈ Nat.digits 10 m, d < 10 := fun d hd => Nat.digits_lt_base (by omega) hd
    have hdn : ∀ d ∈ Nat.digits 10 n, d < 10 := fun d hd => Nat.digits_lt_base (by omega) hd
    have hdig := map_digitChar_inj _ _ hdm hdn hrev
    have h1 := Nat.ofDigits_digits 10 m
    have h2 := Nat.ofDigits_digits 10 n
    rw [← h1, ← h2, hdig]

theorem append_digit_split (a b x y : Str) (ha : digitFree a) (hb : digitFree b)
    (hx : ∀ c ∈ x, isDigitChar c = true) (hy : ∀ c ∈ y, isDigitChar c = true)
    (hx0 : x ≠ []) (hy0 : y ≠ []) (h : a ++ x = b ++ y) : a = b ∧ x = y := by
  induction a generalizing b with
  | nil =>
      cases b with
      | nil => exact ⟨rfl, h⟩
      | cons d bt =>
          exfalso
          cases x with
          | nil => exact hx0 rfl
          | cons c xt =>
              simp only [List.nil_append, List.cons_append, List.cons.injEq] at h
              have h1 : isDigitChar c = true := hx c (by simp)
              have h2 : isDigitChar c = false := by
                rw [h.1]
                exact hb d (by simp)
              rw [h1] at h2
              simp at h2
  | cons c at' ih =>
      cases b with
      | nil =>
          exfalso
          cases y with
          | nil => exact hy0 rfl
          | cons d yt =>
              simp only [List.nil_append, List.cons_append, List.cons.injEq] at h
              have h1 : isDigitChar d = true := hy d (by simp)
              have h2 : isDigitChar d = false := by
                rw [← h.1]
                exact ha c (by simp)
              rw [h1] at h2
              simp at h2
      | cons d bt =>
          simp only [List.cons_append, List.cons.injEq] at h
          have hrec := ih bt (fun z hz => ha z (List.mem_cons_of_mem c hz))
            (fun z hz => hb z (List.mem_cons_of_mem d hz)) h.2
          exact ⟨by rw [h.1, hrec.1], hrec.2⟩

theorem tnvn_digitFree (pref : Str) (ty : Ty) (hp : digitFree pref) :
    digitFree (TypeNameToVarName pref ty) := by
  rw [TypeNameToVarName]
  intro c hc
  rw [List.mem_append] at hc
  cases hc with
  | inl h => exact hp c h
  | inr h =>
      cases hname : filterStr goIsLetter ty.toStr with
      | nil =>
          rw [hname] at h
          simp at h
      | cons d dt =>
          rw [hname] at h
          simp only [List.mem_cons] at h
          have hdmem : ∀ z ∈ filterStr goIsLetter ty.toStr, goIsLetter z = true := by
            intro z hz
            rw [filterStr, List.mem_filter] at hz
            exact hz.2
          cases h with
          | inl h =>
              rw [h]
              exact goToUpper_not_digit d (hdmem d (by rw [hname]; simp))
          | inr h =>
              exact goIsLetter_not_digit c (hdmem c (by rw [hname]; simp [h]))

theorem tnvn_startsWith (pref : Str) (ty : Ty) :
    ∃ t, TypeNameToVarName pref ty = pref ++ t := ⟨_, rfl⟩

theorem NameShape_mono (pref : Str) (k k' : Nat) (x : Str) (h : NameShape pref k x)
    (hk : k ≤ k') : NameShape pref k' x := by
  cases h with
  | inl h => exact Or.inl h
  | inr h =>
      obtain ⟨j, hj, b, hb⟩ := h
      exact Or.inr ⟨j, by omega, b, hb⟩

theorem typeListNamesFrom_spec (pref : Str) (hp : digitFree pref) :
    ∀ (tys : List Ty) (i : Nat) (names : List Str),
      (∀ x ∈ names, NameShape pref i x) → names.Pairwise (· ≠ ·) →
      (typeListNamesFrom pref i names tys).Pairwise (· ≠ ·) ∧
      (∀ x ∈ typeListNamesFrom pref i names tys, NameShape pref (i + tys.length) x) := by
  intro tys
  induction tys with
  | nil =>
      intro i names hsh hpw
      rw [typeListNamesFrom]
      exact ⟨hpw, by simpa using hsh⟩
  | cons ty tys ih =>
      intro i names hsh hpw
      rw [typeListNamesFrom]
      set base := TypeNameToVarName pref ty with hbase
      have hbdf : digitFree base := tnvn_digitFree pref ty hp
      have hbpre : ∃ t, base = pref ++ t := tnvn_startsWith pref ty
      by_cases hc : names.contains base = true
      · -- collision: rename to base ++ itoa i
        rw [if_pos hc]
        have hnew : NameShape pref (i + 1) (base ++ itoa i) :=
          Or.inr ⟨i, by omega, base, hbdf, hbpre, rfl⟩
        have hdist : ∀ x ∈ names, x ≠ base ++ itoa i := by
          intro x hx heq
          cases hsh x hx with
          | inl hxs =>
              obtain ⟨c0, hc0⟩ := List.exists_mem_of_ne_nil (itoa i) (itoa_ne_nil i)
              have hdig : isDigitChar c0 = true := itoa_all_digits i c0 hc0
              have hmem : c0 ∈ x := by
                rw [heq, List.mem_append]
                exact Or.inr hc0
              rw [hxs.1 c0 hmem] at hdig
              simp at hdig
          | inr hxs =>
              obtain ⟨j, hj, b, hbdf', hbpre', hxeq⟩ := hxs
              rw [hxeq] at heq
              have hsplit := append_digit_split b base (itoa j) (itoa i) hbdf' hbdf
                (itoa_all_digits j) (itoa_all_digits i) (itoa_ne_nil j) (itoa_ne_nil i) heq
              have : j = i := itoa_inj j i hsplit.2
              omega
        have hsh' : ∀ x ∈ names ++ [base ++ itoa i], NameShape pref (i + 1) x := by
          intro x hx
          rw [List.mem_append] at hx
          cases hx with
          | inl h => exact NameShape_mono pref i (i + 1) x (hsh x h) (by omega)
          | inr h =>
              simp at h
              rw [h]
              exact hnew
        have hpw' : (names ++ [base ++ itoa i]).Pairwise (· ≠ ·) := by
          rw [List.pairwise_append]
          exact ⟨hpw, by simp, by simpa using hdist⟩
        have := ih (i + 1) (names ++ [base ++ itoa i]) hsh' hpw'
        refine ⟨this.1, fun x hx => NameShape_mono pref (i + 1 + tys.length) _ x
          (this.2 x hx) (by simp only [List.length_cons]; omega)⟩
      · -- no collision
        rw [if_neg hc]
        have hnotmem : base ∉ names := by
          intro hmem
          exact hc (by simpa using hmem)
        have hnew : NameShape pref (i + 1) base := Or.inl ⟨hbdf, hbpre⟩
        have hsh' : ∀ x ∈ names ++ [base], NameShape pref (i + 1) x := by
          intro x hx
          rw [List.mem_append] at hx
          cases hx with
          | inl h => exact NameShape_mono pref i (i + 1) x (hsh x h) (by omega)
          | inr h =>
              simp at h
              rw [h]
              exact hnew
        have hpw' : (names ++ [base]).Pairwise (· ≠ ·) := by
          rw [List.pairwise_append]
          refine ⟨hpw, by simp, ?_⟩
          intro a ha b hb
          simp at hb
          rw [hb]
          intro heq
          rw [heq] at ha
          exact hnotmem ha
        have := ih (i + 1) (names ++ [base]) hsh' hpw'
        refine ⟨this.1, fun x hx => NameShape_mono pref (i + 1 + tys.length) _ x
          (this.2 x hx) (by simp only [List.length_cons]; omega)⟩

theorem typeListNames_pairwise (pref : Str) (tys : List Ty) (hp : digitFree pref) :
    (TypeListNames pref tys).Pairwise (· ≠ ·) :=
  (typeListNamesFrom_spec pref hp tys 0 [] (by simp) (by simp)).1

theorem typeListNames_startsWith (pref : Str) (tys : List Ty) (hp : digitFree pref) :
    ∀ x ∈ TypeListNames pref tys, ∃ t, x = pref ++ t := by
  intro x hx
  have hsh := (typeListNamesFrom_spec pref hp tys 0 [] (by simp) (by simp)).2 x hx
  cases hsh with
  | inl h => exact h.2
  | inr h =>
      obtain ⟨j, hj, b, hbdf, ⟨t, hbt⟩, hxeq⟩ := h
      exact ⟨t ++ itoa j, by rw [hxeq, hbt, List.append_assoc]⟩

/-- C7: within one generated method case, identifier synthesis assigns
pairwise-distinct names across the argument list and the
expected/actual return lists, even when types repeat: base names are
the letters-only projection of the type rendering (capitalised, behind
the `arg`/`expected`/`actual` prefix), and the index suffix appended on
collision never collides with a digit-free base or a different index's
suffix. -/
theorem identifier_synthesis_distinct (function : Function) :
    (FuncArgNames function ++ FuncExpectedNames function
      ++ FuncActualNames function).Pairwise (· ≠ ·) := by
  have hparg : digitFree litArg := by
    unfold digitFree
    decide
  have hpexp : digitFree litExpected := by
    unfold digitFree
    decide
  have hpact : digitFree litActual := by
    unfold digitFree
    decide
  have h1 := typeListNames_pairwise litArg function.parameters hparg
  have h2 := typeListNames_pairwise litExpected function.returns hpexp
  have h3 := typeListNames_pairwise litActual function.returns hpact
  have s1 := typeListNames_startsWith litArg function.parameters hparg
  have s2 := typeListNames_startsWith litExpected function.returns hpexp
  have s3 := typeListNames_startsWith litActual function.returns hpact
  rw [List.append_assoc, List.pairwise_append]
  refine ⟨?_, ?_, ?_⟩
  · exact h1
  · rw [List.pairwise_append]
    refine ⟨h2, h3, ?_⟩
    intro a ha b hb
    obtain ⟨t1, ht1⟩ := s2 a ha
    obtain ⟨t2, ht2⟩ := s3 b hb
    rw [ht1, ht2]
    intro heq
    rw [litExpected, litActual] at heq
    simp at heq
  · intro a ha b hb
    obtain ⟨t1, ht1⟩ := s1 a ha
    rw [List.mem_append] at hb
    cases hb with
    | inl hb =>
        obtain ⟨t2, ht2⟩ := s2 b hb
        rw [ht1, ht2]
        intro heq
        rw [litArg, litExpected] at heq
        simp at heq
    | inr hb =>
        obtain ⟨t2, ht2⟩ := s3 b hb
        rw [ht1, ht2]
        intro heq
        rw [litArg, litActual] at heq
        simp at heq

/-! ## Claim C2: invariants -/

theorem invariantSection_eq_flatten (invs : List Str) :
    invariantSection invs = (invs.map invariantBlock).flatten := by
  suffices haux : ∀ acc, invs.foldl (fun a i => a ++ invariantBlock i) acc =
      acc ++ (invs.map invariantBlock).flatten by
    have := haux []
    simpa [invariantSection] using this
  induction invs with
  | nil => intro acc; simp
  | cons i t ih =>
      intro acc
      rw [List.foldl_cons, ih, List.map_cons, List.flatten_cons, List.append_assoc]

theorem isPrefixOf_append_self (p t : Str) : p.isPrefixOf (p ++ t) = true := by
  rw [List.isPrefixOf_iff_prefix]
  exact ⟨t, rfl⟩

theorem matchPrefix_self (p t : Str) :
    matchPrefix (p ++ t) p = (trimLeftWS t, true) := by
  rw [matchPrefix, if_pos (isPrefixOf_append_self p t)]
  rw [List.drop_left]

theorem parseLine_invariant_records (f : WantedFuzzer) (e : Str)
    (he : trimLeftWS e = e) :
    parseLine (litInvariant ++ (' ' :: e)) f =
      GoR.ok { f with invariants := f.invariants ++ [e] } := by
  have hk : matchPrefix (litInvariant ++ (' ' :: e)) litKnownCorrect
      = (litInvariant ++ (' ' :: e), false) := rfl
  have hc : matchPrefix (litInvariant ++ (' ' :: e)) litComparison
      = (litInvariant ++ (' ' :: e), false) := rfl
  have hg : matchPrefix (litInvariant ++ (' ' :: e)) litGenerator
      = (litInvariant ++ (' ' :: e), false) := rfl
  have hgs : matchPrefix (litInvariant ++ (' ' :: e)) litGeneratorState
      = (litInvariant ++ (' ' :: e), false) := rfl
  have hi : matchPrefix (litInvariant ++ (' ' :: e)) litInvariant
      = (trimLeftWS e, true) := by
    have h := matchPrefix_self litInvariant (' ' :: e)
    rw [h]
    have : trimLeftWS (' ' :: e) = trimLeftWS e := by
      rw [trimLeftWS, trimLeftWS, List.dropWhile_cons]
      simp [goIsSpace]
    rw [this]
  rw [parseLine]
  simp only [hk, hc, hg, hgs]
  rw [parseLineInvariant]
  simp only [hi, he]
  rfl

theorem trimSpace_no_edges (x : Str) (h t : Str) (hd b : Char)
    (hx1 : x = hd :: h) (hhd : goIsSpace hd = false)
    (hx2 : x = t ++ [b]) (hb : goIsSpace b = false) :
    trimSpace ('\n' :: x) = x := by
  have h1 : trimLeftWS ('\n' :: x) = x := by
    rw [trimLeftWS, List.dropWhile_cons]
    have hnl : goIsSpace '\n' = true := by decide
    rw [hnl]
    simp only [if_true]
    rw [hx1, List.dropWhile_cons, hhd]
    simp
  have h2 : x.reverse.dropWhile goIsSpace = x.reverse := by
    conv_lhs => rw [hx2]
    rw [List.reverse_append, List.reverse_singleton, List.singleton_append,
      List.dropWhile_cons, hb]
    simp
    rw [hx2, List.reverse_append, List.reverse_singleton, List.singleton_append]
  rw [trimSpace, h1, h2, List.reverse_reverse]

theorem coreTail_concat : coreTail = "\n\t\x7d\n\n\treturn nil\n".toList ++ [ '}' ] := rfl

theorem ends_with_append (A B : Str)
    (hB : ∃ t b, B = t ++ [b] ∧ goIsSpace b = false) :
    ∃ t b, A ++ B = t ++ [b] ∧ goIsSpace b = false := by
  obtain ⟨t, b, hBe, hb⟩ := hB
  exact ⟨A ++ t, b, by rw [hBe, List.append_assoc], hb⟩

theorem trimSpace_no_edges2 (x : Str)
    (hx1 : ∃ hd h, x = hd :: h ∧ goIsSpace hd = false)
    (hx2 : ∃ t b, x = t ++ [b] ∧ goIsSpace b = false) :
    trimSpace ('\n' :: x) = x := by
  obtain ⟨hd, hh, hxe1, hhd⟩ := hx1
  obtain ⟨t, b, hxe2, hb⟩ := hx2
  exact trimSpace_no_edges x hh t hd b hxe1 hhd hxe2 hb

theorem codegenWithReference_shape (fz : Fuzzer) (out : Str)
    (h : CodegenWithReference fz = Except.ok out) :
    ∃ pre, out = pre ++ ("\n\t\t\x7d ".toList
      ++ (invariantSection fz.wanted.invariants ++ coreTail)) := by
  rw [CodegenWithReference] at h
  cases hm : fz.interface.functions.enum.mapM (fun p => methodCase fz p.1 p.2) with
  | error e =>
      rw [hm] at h
      simp [Bind.bind, Except.bind] at h
  | ok cs =>
      rw [hm] at h
      simp only [Bind.bind, Except.bind, pure, Except.pure, Except.ok.injEq] at h
      simp only [List.cons_append] at h
      have hx : trimSpace ('\n' :: ((((coreHead fz.interface.name
          (if fz.wanted.generatorState = [] then []
           else "\t// Create initial state\n\tstate := ".toList
             ++ fz.wanted.generatorState ++ "\n\n".toList)
          fz.interface.functions.length
          ++ cs.flatten) ++ "\n\t\t\x7d ".toList)
          ++ invariantSection fz.wanted.invariants) ++ coreTail)) =
          (((coreHead fz.interface.name
          (if fz.wanted.generatorState = [] then []
           else "\t// Create initial state\n\tstate := ".toList
             ++ fz.wanted.generatorState ++ "\n\n".toList)
          fz.interface.functions.length
          ++ cs.flatten) ++ "\n\t\t\x7d ".toList)
          ++ invariantSection fz.wanted.invariants) ++ coreTail := by
        apply trimSpace_no_edges2
        · exact ⟨'f', _, rfl, by decide⟩
        · apply ends_with_append
          exact ⟨_, '}', coreTail_concat, by decide⟩
      rw [hx] at h
      refine ⟨coreHead fz.interface.name
          (if fz.wanted.generatorState = [] then []
           else "\t// Create initial state\n\tstate := ".toList
             ++ fz.wanted.generatorState ++ "\n\n".toList)
          fz.interface.functions.length ++ cs.flatten, ?_⟩
      rw [← h]
      simp [List.append_assoc]

/-- C2: the directive parser records each invariant expression verbatim
in the harness spec (spec-modelled branch `parseLineInvariant`), and
the generated core differential routine places, inside the
per-iteration loop after the switch's closing brace and before the loop
end, one check block per recorded invariant — the block evaluates the
invariant with every `%var` placeholder replaced by the reference
identifier and returns `errors.New` naming the invariant's literal
source text when it is false. -/
theorem invariants_recorded_and_checked :
    (∀ (f : WantedFuzzer) (e : Str), trimLeftWS e = e →
      parseLine (litInvariant ++ (' ' :: e)) f =
        GoR.ok { f with invariants := f.invariants ++ [e] }) ∧
    (∀ (fz : Fuzzer) (out : Str), CodegenWithReference fz = Except.ok out →
      (∃ pre, out = pre ++ ("\n\t\t\x7d ".toList
        ++ (invariantSection fz.wanted.invariants ++ coreTail))) ∧
      (∀ inv ∈ fz.wanted.invariants, invariantBlock inv <:+: out)) := by
  constructor
  · exact parseLine_invariant_records
  · intro fz out h
    obtain ⟨pre, hpre⟩ := codegenWithReference_shape fz out h
    refine ⟨⟨pre, hpre⟩, ?_⟩
    intro inv hinv
    have h1 : invariantBlock inv <:+: invariantSection fz.wanted.invariants := by
      rw [invariantSection_eq_flatten]
      exact List.infix_of_mem_flatten (List.mem_map_of_mem invariantBlock hinv)
    have h2 : invariantSection fz.wanted.invariants <:+: out := by
      refine ⟨pre ++ "\n\t\t\x7d ".toList, coreTail, ?_⟩
      rw [hpre]
      simp [List.append_assoc]
    exact h1.trans h2

/-- C2 (witness): recording and checking the invariant
`%var.Len() == 0` for a concrete harness. -/
theorem invariants_recorded_and_checked_witness :
    parseLine (litInvariant ++ (' ' :: ("%var.Len() == 0".toList))) emptyWantedFuzzer =
      GoR.ok { emptyWantedFuzzer with invariants := [ "%var.Len() == 0".toList ] } ∧
    ∃ out, CodegenWithReference
        ⟨⟨ "C".toList, []⟩,
         { emptyWantedFuzzer with
           interfaceName := "C".toList,
           invariants := [ "%var.Len() == 0".toList ] }⟩ = Except.ok out ∧
      invariantBlock ("%var.Len() == 0".toList) <:+: out := by
  constructor
  · exact invariants_recorded_and_checked.1 emptyWantedFuzzer
      ("%var.Len() == 0".toList) (by decide)
  · cases hcg : CodegenWithReference
        ⟨⟨ "C".toList, []⟩,
         { emptyWantedFuzzer with
           interfaceName := "C".toList,
           invariants := [ "%var.Len() == 0".toList ] }⟩ with
    | error e =>
        exfalso
        have hok : (CodegenWithReference
            ⟨⟨ "C".toList, []⟩,
             { emptyWantedFuzzer with
               interfaceName := "C".toList,
               invariants := [ "%var.Len() == 0".toList ] }⟩).isOk = true := by decide
        rw [hcg] at hok
        simp [Except.isOk, Except.toBool] at hok
    | ok out =>
        exact ⟨out, rfl, (invariants_recorded_and_checked.2 _ out hcg).2
          ("%var.Len() == 0".toList) (by decide)⟩

/-! ## Claim C1: the parse/render round trip -/

theorem nameChar_not_special (c : Char) (h : nameChars.contains c = true) :
    c ≠ '[' ∧ c ≠ ']' ∧ c ≠ '(' ∧ c ≠ ')' ∧ c ≠ '*' ∧ c ≠ '.' ∧ goIsSpace c = false := by
  refine ⟨?_, ?_, ?_, ?_, ?_, ?_, ?_⟩
  · intro he
    rw [he] at h
    exact absurd h (by decide)
  · intro he
    rw [he] at h
    exact absurd h (by decide)
  · intro he
    rw [he] at h
    exact absurd h (by decide)
  · intro he
    rw [he] at h
    exact absurd h (by decide)
  · intro he
    rw [he] at h
    exact absurd h (by decide)
  · intro he
    rw [he] at h
    exact absurd h (by decide)
  · by_contra hsp
    rw [Bool.not_eq_false] at hsp
    simp only [goIsSpace, Bool.or_eq_true, decide_eq_true_eq] at hsp
    rcases hsp with (((((h1 | h1) | h1) | h1) | h1) | h1) <;>
      (rw [h1] at h; exact absurd h (by decide))

theorem takeWhile_of_all {p : Char → Bool} (l : Str) (h : ∀ c ∈ l, p c = true) :
    l.takeWhile p = l := by
  induction l with
  | nil => rfl
  | cons x t ih =>
      rw [List.takeWhile_cons, h x (by simp)]
      simp only [if_true]
      rw [ih (fun c hc => h c (by simp [hc]))]

theorem dropWhile_of_all {p : Char → Bool} (l : Str) (h : ∀ c ∈ l, p c = true) :
    l.dropWhile p = [] := by
  induction l with
  | nil => rfl
  | cons x t ih =>
      rw [List.dropWhile_cons, h x (by simp)]
      simp only [if_true]
      exact ih (fun c hc => h c (by simp [hc]))

theorem takeWhile_append_stop {p : Char → Bool} (l : Str) (sep : Char) (r : Str)
    (hl : ∀ c ∈ l, p c = true) (hsep : p sep = false) :
    (l ++ sep :: r).takeWhile p = l ∧ (l ++ sep :: r).dropWhile p = sep :: r := by
  induction l with
  | nil =>
      constructor
      · rw [List.nil_append, List.takeWhile_cons, hsep]
        simp
      · rw [List.nil_append, List.dropWhile_cons, hsep]
        simp
  | cons x t ih =>
      have hx : p x = true := hl x (by simp)
      have iht := ih (fun c hc => hl c (by simp [hc]))
      constructor
      · rw [List.cons_append, List.takeWhile_cons, hx]
        simp only [if_true]
        rw [iht.1]
      · rw [List.cons_append, List.dropWhile_cons, hx]
        simp only [if_true]
        exact iht.2

theorem dropWhile_cons_false {p : Char → Bool} (x : Char) (t : Str) (h : p x = false) :
    (x :: t).dropWhile p = x :: t := by
  rw [List.dropWhile_cons, h]
  simp

theorem parseName_all (n : Str) (h : goodNameChars n) : parseName n = (n, []) := by
  rw [parseName, takeWhileIn]
  rw [takeWhile_of_all n h, dropWhile_of_all n h]
  rfl

theorem parseName_sep (n : Str) (sep : Char) (t : Str) (h : goodNameChars n)
    (hsep : nameChars.contains sep = false) (hsp : goIsSpace sep = false) :
    parseName (n ++ sep :: t) = (n, sep :: t) := by
  rw [parseName, takeWhileIn]
  have hsplit := takeWhile_append_stop n sep t h hsep
  rw [hsplit.1, hsplit.2]
  show (n, trimLeftWS (sep :: t)) = (n, sep :: t)
  rw [trimLeftWS, dropWhile_cons_false sep t hsp]

theorem mem_of_isPrefixOf {p l : Str} {a : Char} (h : p.isPrefixOf l = true)
    (ha : a ∈ p) : a ∈ l :=
  (List.isPrefixOf_iff_prefix.mp h).subset ha

theorem mem_of_isSuffixOf {p l : Str} {a : Char} (h : p.isSuffixOf l = true)
    (ha : a ∈ p) : a ∈ l :=
  (List.isSuffixOf_iff_suffix.mp h).subset ha

theorem leafy_chars (t : Ty) (h : Leafy t) :
    ∀ c ∈ t.toStr, nameChars.contains c = true ∨ c = '.' := by
  rcases h with ⟨n, rfl, hn⟩ | ⟨p, q, rfl, hp, hq⟩
  · exact fun c hc => Or.inl (hn.1 c hc)
  · intro c hc
    simp only [Ty.toStr, List.append_assoc, List.mem_append, List.mem_cons,
      List.mem_singleton] at hc
    rcases hc with hc | hc | hc
    · exact Or.inl (hp.1 c hc)
    · refine Or.inr ?_
      have hd : (".".toList) = ['.'] := rfl
      rw [hd] at hc
      simpa using hc
    · exact Or.inl (hq c hc)

theorem leafy_no_special (s : Str)
    (hch : ∀ c ∈ s, nameChars.contains c = true ∨ c = '.') :
    '[' ∉ s ∧ '*' ∉ s ∧ '(' ∉ s ∧ ')' ∉ s := by
  refine ⟨?_, ?_, ?_, ?_⟩ <;>
    (intro hm
     rcases hch _ hm with hc | hc
     · exact absurd hc (by decide)
     · exact absurd hc (by decide))

theorem litArr_not_prefix (s : Str) (h : '[' ∉ s) : litArr.isPrefixOf s = false := by
  by_contra hb
  rw [Bool.not_eq_false] at hb
  exact h (mem_of_isPrefixOf hb (by decide))

theorem litMap_not_prefix (s : Str) (h : '[' ∉ s) : litMap.isPrefixOf s = false := by
  by_contra hb
  rw [Bool.not_eq_false] at hb
  exact h (mem_of_isPrefixOf hb (by decide))

theorem litStar_not_prefix (s : Str) (h : '*' ∉ s) : litStar.isPrefixOf s = false := by
  by_contra hb
  rw [Bool.not_eq_false] at hb
  exact h (mem_of_isPrefixOf hb (by decide))

theorem litOpen_not_prefix (s : Str) (h : '(' ∉ s) : litOpen.isPrefixOf s = false := by
  by_contra hb
  rw [Bool.not_eq_false] at hb
  exact h (mem_of_isPrefixOf hb (by decide))

theorem litClose_not_suffix (s : Str) (h : ')' ∉ s) : litClose.isSuffixOf s = false := by
  by_contra hb
  rw [Bool.not_eq_false] at hb
  exact h (mem_of_isSuffixOf hb (by decide))

theorem matchDelims_id (s : Str) (hop : '(' ∉ s) (hcl : ')' ∉ s) :
    matchDelims s litOpen litClose = (s, true) := by
  rw [matchDelims]
  rw [removePrefix_no s litOpen ( litOpen_not_prefix s hop)]
  rw [removeSuffix_no s litClose (litClose_not_suffix s hcl)]
  rfl

theorem chanPre_append (p t : Str) (sep : Char)
    (hchan : litChan.isPrefixOf p = false)
    (h1 : sep ≠ 'c') (h2 : sep ≠ 'h') (h3 : sep ≠ 'a') (h4 : sep ≠ 'n') :
    litChan.isPrefixOf (p ++ sep :: t) = false := by
  have hl : litChan = 'c' :: 'h' :: 'a' :: 'n' :: [] := rfl
  rw [hl]
  rcases p with _ | ⟨a, _ | ⟨b, _ | ⟨c', _ | ⟨d, rest⟩⟩⟩⟩
  · simp only [List.nil_append]
    simp only [List.isPrefixOf, Bool.and_eq_false_iff, beq_eq_false_iff_ne, ne_eq]
    exact Or.inl (fun he => h1 he.symm)
  · simp only [List.cons_append, List.nil_append]
    simp only [List.isPrefixOf, Bool.and_eq_false_iff, beq_eq_false_iff_ne, ne_eq]
    exact Or.inr (Or.inl (fun he => h2 he.symm))
  · simp only [List.cons_append, List.nil_append]
    simp only [List.isPrefixOf, Bool.and_eq_false_iff, beq_eq_false_iff_ne, ne_eq]
    exact Or.inr (Or.inr (Or.inl (fun he => h3 he.symm)))
  · simp only [List.cons_append, List.nil_append]
    simp only [List.isPrefixOf, Bool.and_eq_false_iff, beq_eq_false_iff_ne, ne_eq]
    exact Or.inr (Or.inr (Or.inr (Or.inl (fun he => h4 he.symm))))
  · rw [hl] at hchan
    simp only [List.isPrefixOf, Bool.and_eq_false_iff] at hchan
    simp only [List.cons_append]
    simp only [List.isPrefixOf, Bool.and_eq_false_iff]
    rcases hchan with hc | hc | hc | hc | hc
    · exact Or.inl hc
    · exact Or.inr (Or.inl hc)
    · exact Or.inr (Or.inr (Or.inl hc))
    · exact Or.inr (Or.inr (Or.inr (Or.inl hc)))
    · simp at hc

theorem trimLeftWS_cons_nonspace (x : Char) (t : Str) (h : goIsSpace x = false) :
    trimLeftWS (x :: t) = x :: t := by
  rw [trimLeftWS]
  exact dropWhile_cons_false x t h

theorem parseTypeF_basic (fuel : Nat) (n : Str) (h : goodName n) :
    parseTypeF (fuel + 1) n = ⟨some (Ty.basic n), [], false⟩ := by
  have hsp := leafy_no_special n (fun c hc => Or.inl (h.1 c hc))
  have harr : matchPrefix n litArr = (n, false) := by
    simp [matchPrefix, litArr_not_prefix n hsp.1]
  have hchanp : matchPrefix n litChan = (n, false) := by
    simp [matchPrefix, h.2]
  have hmap : matchPrefix n litMap = (n, false) := by
    simp [matchPrefix, litMap_not_prefix n hsp.1]
  have hstar : matchPrefix n litStar = (n, false) := by
    simp [matchPrefix, litStar_not_prefix n hsp.2.1]
  have hdel := matchDelims_id n hsp.2.2.1 hsp.2.2.2
  have hname := parseName_all n h.1
  rw [parseTypeF]
  simp only [harr, hchanp, hmap, hstar, hdel, hname]
  simp [show trimLeftWS ([] : Str) = [] from rfl]

theorem parseTypeF_qualified (fuel : Nat) (p q : Str) (hp : goodName p)
    (hq : goodNameChars q) :
    parseTypeF (fuel + 1) (p ++ '.' :: q) =
      ⟨some (Ty.qualified p (Ty.basic q)), [], false⟩ := by
  have hch : ∀ c ∈ p ++ '.' :: q, nameChars.contains c = true ∨ c = '.' := by
    intro c hc
    rcases List.mem_append.mp hc with hc | hc
    · exact Or.inl (hp.1 c hc)
    · rcases List.mem_cons.mp hc with rfl | hc
      · exact Or.inr rfl
      · exact Or.inl (hq c hc)
  have hsp := leafy_no_special _ hch
  have harr : matchPrefix (p ++ '.' :: q) litArr = (p ++ '.' :: q, false) := by
    simp [matchPrefix, litArr_not_prefix _ hsp.1]
  have hchanp : matchPrefix (p ++ '.' :: q) litChan = (p ++ '.' :: q, false) := by
    simp [matchPrefix,
      chanPre_append p q '.' hp.2 (by decide) (by decide) (by decide) (by decide)]
  have hmap : matchPrefix (p ++ '.' :: q) litMap = (p ++ '.' :: q, false) := by
    simp [matchPrefix, litMap_not_prefix _ hsp.1]
  have hstar : matchPrefix (p ++ '.' :: q) litStar = (p ++ '.' :: q, false) := by
    simp [matchPrefix, litStar_not_prefix _ hsp.2.1]
  have hdel := matchDelims_id _ hsp.2.2.1 hsp.2.2.2
  have hname := parseName_sep p '.' q hp.1 (by decide) (by decide)
  have htw : trimLeftWS ('.' :: q) = '.' :: q :=
    trimLeftWS_cons_nonspace '.' q (by decide)
  have hname2 := parseName_all q hq
  rw [parseTypeF]
  simp only [harr, hchanp, hmap, hstar, hdel, hname, htw, hname2]
  simp [show trimLeftWS ([] : Str) = [] from rfl]

theorem parseTypeF_leaf (fuel : Nat) (t : Ty) (h : Leafy t) :
    parseTypeF (fuel + 1) t.toStr = ⟨some t, [], false⟩ := by
  rcases h with ⟨n, rfl, hn⟩ | ⟨p, q, rfl, hp, hq⟩
  · exact parseTypeF_basic fuel n hn
  · have hs : (Ty.qualified p (Ty.basic q)).toStr = p ++ '.' :: q := by
      show p ++ ".".toList ++ q = p ++ '.' :: q
      rw [List.append_assoc]
      rfl
    rw [hs]
    exact parseTypeF_qualified fuel p q hp hq

theorem takeWhile_nil_of_all {p : Char → Bool} (l : Str) (h : ∀ c ∈ l, p c = false) :
    l.takeWhile p = [] := by
  cases l with
  | nil => rfl
  | cons x t =>
      rw [List.takeWhile_cons, h x (by simp)]
      simp

theorem dropWhile_id_of_all {p : Char → Bool} (l : Str) (h : ∀ c ∈ l, p c = false) :
    l.dropWhile p = l := by
  cases l with
  | nil => rfl
  | cons x t => exact dropWhile_cons_false x t (h x (by simp))

theorem leafChar_ne_open (r : Str)
    (hch : ∀ c ∈ r, nameChars.contains c = true ∨ c = '.') :
    ∀ c ∈ r, (c == '(') = false := by
  intro c hc
  rcases hch c hc with h | h
  · simp only [beq_eq_false_iff_ne, ne_eq]
    exact (nameChar_not_special c h).2.2.1
  · rw [h]
    decide

theorem leafChar_ne_close (r : Str)
    (hch : ∀ c ∈ r, nameChars.contains c = true ∨ c = '.') :
    ∀ c ∈ r, (c == ')') = false := by
  intro c hc
  rcases hch c hc with h | h
  · simp only [beq_eq_false_iff_ne, ne_eq]
    exact (nameChar_not_special c h).2.2.2.1
  · rw [h]
    decide

theorem matchDelims_wrap (r : Str)
    (hch : ∀ c ∈ r, nameChars.contains c = true ∨ c = '.') :
    matchDelims ('(' :: (r ++ [ ')' ])) litOpen litClose = (r, true) := by
  have hne1 := leafChar_ne_open r hch
  have hne2 := leafChar_ne_close r hch
  have ha : ∀ c ∈ r ++ [ ')' ], (c == '(') = false := by
    intro c hc
    rcases List.mem_append.mp hc with hc | hc
    · exact hne1 c hc
    · rcases List.mem_singleton.mp hc with rfl
      decide
  have h1 : removePrefix ('(' :: (r ++ [ ')' ])) litOpen = (r ++ [ ')' ], 1) := by
    rw [show (litOpen : Str) = ['('] from rfl, removePrefix_single]
    rw [List.takeWhile_cons, List.dropWhile_cons]
    simp only [beq_self_eq_true, if_true]
    rw [takeWhile_nil_of_all _ ha, dropWhile_id_of_all _ ha]
    rfl
  have h2 : removeSuffix (r ++ [ ')' ]) litClose = (r, 1) := by
    rw [show (litClose : Str) = [')'] from rfl, removeSuffix_single]
    have hrev : (r ++ [ ')' ]).reverse = ')' :: r.reverse := by simp
    rw [hrev]
    have har : ∀ c ∈ r.reverse, (c == ')') = false := fun c hc =>
      hne2 c (List.mem_reverse.mp hc)
    rw [List.takeWhile_cons, List.dropWhile_cons]
    simp only [beq_self_eq_true, if_true]
    rw [takeWhile_nil_of_all _ har, dropWhile_id_of_all _ har]
    simp
  rw [matchDelims]
  simp only [h1]
  simp only [h2]
  rfl

theorem parseUnaryTypeF_leaf (fuel : Nat) (tycon : Ty → Ty) (t : Ty) (orig : Str)
    (h : Leafy t) :
    parseUnaryTypeF (fuel + 2) tycon ('(' :: (t.toStr ++ [ ')' ])) orig =
      ⟨some (tycon t), [], false⟩ := by
  have hd := matchDelims_wrap t.toStr (leafy_chars t h)
  have htr : trimLeftSpaces ('(' :: (t.toStr ++ [ ')' ])) =
      '(' :: (t.toStr ++ [ ')' ]) := by
    rw [trimLeftSpaces]
    exact dropWhile_cons_false _ _ (by decide)
  rw [parseUnaryTypeF]
  simp only [htr, hd]
  simp only [parseTypeF_leaf fuel t h]
  simp

theorem roundTrips_array (t : Ty) (h : Leafy t) : roundTrips (Ty.array t) := by
  have hs : (Ty.array t).toStr = '[' :: ']' :: '(' :: (t.toStr ++ [ ')' ]) := by
    show ("[](".toList ++ t.toStr) ++ ")".toList = _
    rw [List.append_assoc]
    rfl
  show parseType (Ty.array t).toStr = ⟨some (Ty.array t), [], false⟩
  rw [parseType, hs]
  have hlen : ('[' :: ']' :: '(' :: (t.toStr ++ [ ')' ])).length = t.toStr.length + 4 := by
    simp only [List.length_cons, List.length_append, List.length_singleton,
      List.length_nil]
  rw [hlen]
  rw [parseTypeF]
  have hm : matchPrefix ('[' :: ']' :: '(' :: (t.toStr ++ [ ')' ])) litArr =
      ('(' :: (t.toStr ++ [ ')' ]), true) := by
    rw [matchPrefix]
    rw [show litArr.isPrefixOf ('[' :: ']' :: '(' :: (t.toStr ++ [ ')' ])) = true from rfl]
    rw [if_pos rfl]
    rw [show ('[' :: ']' :: '(' :: (t.toStr ++ [ ')' ])).drop litArr.length =
      '(' :: (t.toStr ++ [ ')' ]) from rfl]
    rw [trimLeftWS_cons_nonspace _ _ (by decide)]
  simp only [hm]
  simp only [if_true, show (('(' :: (t.toStr ++ [ ')' ]), true).2 = true) = True by simp]
  have h4 : t.toStr.length + 4 = t.toStr.length + 2 + 2 := by omega
  rw [h4]
  exact parseUnaryTypeF_leaf _ Ty.array t _ h

theorem roundTrips_chan (t : Ty) (h : Leafy t) : roundTrips (Ty.chan t) := by
  have hs : (Ty.chan t).toStr =
      'c' :: 'h' :: 'a' :: 'n' :: ' ' :: '(' :: (t.toStr ++ [ ')' ]) := by
    show ("chan (".toList ++ t.toStr) ++ ")".toList = _
    rw [List.append_assoc]
    rfl
  show parseType (Ty.chan t).toStr = ⟨some (Ty.chan t), [], false⟩
  rw [parseType, hs]
  have hlen : ('c' :: 'h' :: 'a' :: 'n' :: ' ' :: '(' :: (t.toStr ++ [ ')' ])).length =
      t.toStr.length + 7 := by
    simp only [List.length_cons, List.length_append, List.length_singleton,
      List.length_nil]
  rw [hlen]
  rw [parseTypeF]
  have hm1 : matchPrefix ('c' :: 'h' :: 'a' :: 'n' :: ' ' :: '(' :: (t.toStr ++ [ ')' ]))
      litArr = ('c' :: 'h' :: 'a' :: 'n' :: ' ' :: '(' :: (t.toStr ++ [ ')' ]), false) := rfl
  have hm2 : matchPrefix ('c' :: 'h' :: 'a' :: 'n' :: ' ' :: '(' :: (t.toStr ++ [ ')' ]))
      litChan = ('(' :: (t.toStr ++ [ ')' ]), true) := by
    rw [matchPrefix]
    rw [show litChan.isPrefixOf
      ('c' :: 'h' :: 'a' :: 'n' :: ' ' :: '(' :: (t.toStr ++ [ ')' ])) = true from rfl]
    rw [if_pos rfl]
    rw [show ('c' :: 'h' :: 'a' :: 'n' :: ' ' :: '(' :: (t.toStr ++ [ ')' ])).drop
      litChan.length = ' ' :: '(' :: (t.toStr ++ [ ')' ]) from rfl]
    rw [trimLeftWS, List.dropWhile_cons]
    simp only [show goIsSpace ' ' = true from rfl, if_true]
    rw [dropWhile_cons_false '(' (t.toStr ++ [ ')' ]) (by decide)]
  simp only [hm1, hm2]
  simp only [show (('c' :: 'h' :: 'a' :: 'n' :: ' ' :: '(' :: (t.toStr ++ [ ')' ]), false).2
    = true) = False by simp, if_false]
  simp only [if_true, show (('(' :: (t.toStr ++ [ ')' ]), true).2 = true) = True by simp]
  have h7 : t.toStr.length + 7 = t.toStr.length + 5 + 2 := by omega
  rw [h7]
  exact parseUnaryTypeF_leaf _ Ty.chan t _ h

theorem roundTrips_pointer (t : Ty) (h : Leafy t) : roundTrips (Ty.pointer t) := by
  have hs : (Ty.pointer t).toStr = '*' :: '(' :: (t.toStr ++ [ ')' ]) := by
    show ("*(".toList ++ t.toStr) ++ ")".toList = _
    rw [List.append_assoc]
    rfl
  show parseType (Ty.pointer t).toStr = ⟨some (Ty.pointer t), [], false⟩
  rw [parseType, hs]
  have hlen : ('*' :: '(' :: (t.toStr ++ [ ')' ])).length = t.toStr.length + 3 := by
    simp only [List.length_cons, List.length_append, List.length_singleton,
      List.length_nil]
  rw [hlen]
  rw [parseTypeF]
  have hm1 : matchPrefix ('*' :: '(' :: (t.toStr ++ [ ')' ])) litArr =
      ('*' :: '(' :: (t.toStr ++ [ ')' ]), false) := rfl
  have hm2 : matchPrefix ('*' :: '(' :: (t.toStr ++ [ ')' ])) litChan =
      ('*' :: '(' :: (t.toStr ++ [ ')' ]), false) := rfl
  have hm3 : matchPrefix ('*' :: '(' :: (t.toStr ++ [ ')' ])) litMap =
      ('*' :: '(' :: (t.toStr ++ [ ')' ]), false) := rfl
  have hm4 : matchPrefix ('*' :: '(' :: (t.toStr ++ [ ')' ])) litStar =
      ('(' :: (t.toStr ++ [ ')' ]), true) := by
    rw [matchPrefix]
    rw [show litStar.isPrefixOf ('*' :: '(' :: (t.toStr ++ [ ')' ])) = true from rfl]
    rw [if_pos rfl]
    rw [show ('*' :: '(' :: (t.toStr ++ [ ')' ])).drop litStar.length =
      '(' :: (t.toStr ++ [ ')' ]) from rfl]
    rw [trimLeftWS]
    rw [dropWhile_cons_false '(' (t.toStr ++ [ ')' ]) (by decide)]
  simp only [hm1, hm2, hm3, hm4]
  simp
  have h3 : t.toStr.length + 3 = t.toStr.length + 1 + 2 := by omega
  rw [h3]
  exact parseUnaryTypeF_leaf _ Ty.pointer t _ h

theorem matchDelims_unbalanced (b : Str)
    (hopen : litOpen.isPrefixOf (b ++ [ ')' ]) = false) :
    (matchDelims (b ++ [ ')' ]) litOpen litClose).2 = false := by
  rw [matchDelims]
  rw [removePrefix_no _ litOpen hopen]
  rw [show (litClose : Str) = [')'] from rfl]
  simp only [removeSuffix_single]
  rw [List.reverse_append]
  simp only [List.reverse_singleton, List.singleton_append, List.takeWhile_cons]
  simp

theorem parseTypeF_mapInput_err (fuel : Nat) (k v : Str) (hk : goodName k)
    (hv : goodName v) :
    parseTypeF (fuel + 1) (k ++ ']' :: '(' :: (v ++ [ ')' ])) =
      ⟨none, k ++ ']' :: '(' :: (v ++ [ ')' ]), true⟩ := by
  have hnotbr : '[' ∉ k ++ ']' :: '(' :: (v ++ [ ')' ]) := by
    intro hm
    simp only [List.mem_append, List.mem_cons, List.mem_singleton] at hm
    rcases hm with hm | hm | hm | hm | hm
    · exact absurd (hk.1 _ hm) (by decide)
    · exact absurd hm (by decide)
    · exact absurd hm (by decide)
    · exact absurd (hv.1 _ hm) (by decide)
    · exact absurd hm (by decide)
  have hnotstar : '*' ∉ k ++ ']' :: '(' :: (v ++ [ ')' ]) := by
    intro hm
    simp only [List.mem_append, List.mem_cons, List.mem_singleton] at hm
    rcases hm with hm | hm | hm | hm | hm
    · exact absurd (hk.1 _ hm) (by decide)
    · exact absurd hm (by decide)
    · exact absurd hm (by decide)
    · exact absurd (hv.1 _ hm) (by decide)
    · exact absurd hm (by decide)
  have hm1 : matchPrefix (k ++ ']' :: '(' :: (v ++ [ ')' ])) litArr =
      (k ++ ']' :: '(' :: (v ++ [ ')' ]), false) := by
    simp [matchPrefix, litArr_not_prefix _ hnotbr]
  have hm2 : matchPrefix (k ++ ']' :: '(' :: (v ++ [ ')' ])) litChan =
      (k ++ ']' :: '(' :: (v ++ [ ')' ]), false) := by
    simp [matchPrefix,
      chanPre_append k ('(' :: (v ++ [ ')' ])) ']' hk.2
        (by decide) (by decide) (by decide) (by decide)]
  have hm3 : matchPrefix (k ++ ']' :: '(' :: (v ++ [ ')' ])) litMap =
      (k ++ ']' :: '(' :: (v ++ [ ')' ]), false) := by
    simp [matchPrefix, litMap_not_prefix _ hnotbr]
  have hm4 : matchPrefix (k ++ ']' :: '(' :: (v ++ [ ')' ])) litStar =
      (k ++ ']' :: '(' :: (v ++ [ ')' ]), false) := by
    simp [matchPrefix, litStar_not_prefix _ hnotstar]
  have hopen : litOpen.isPrefixOf (k ++ ']' :: '(' :: (v ++ [ ')' ])) = false := by
    cases k with
    | nil => rfl
    | cons c kt =>
        have hc : ('(' == c) = false := by
          simp only [beq_eq_false_iff_ne, ne_eq]
          intro he
          exact absurd (hk.1 c (by simp)) (by rw [← he]; decide)
        rw [show (litOpen : Str) = ['('] from rfl]
        rw [List.cons_append]
        simp [List.isPrefixOf, hc]
  have hsplit : k ++ ']' :: '(' :: (v ++ [ ')' ]) =
      (k ++ ']' :: '(' :: v) ++ [ ')' ] := by
    rw [List.append_assoc]
    rfl
  have hd2 : (matchDelims (k ++ ']' :: '(' :: (v ++ [ ')' ])) litOpen litClose).2 =
      false := by
    rw [hsplit]
    rw [hsplit] at hopen
    exact matchDelims_unbalanced _ hopen
  rw [parseTypeF]
  simp only [hm1, hm2, hm3, hm4]
  simp [hd2]

theorem parse_map_render_err (k v : Str) (hk : goodName k) (hv : goodName v) :
    (parseType (Ty.map (Ty.basic k) (Ty.basic v)).toStr).err = true := by
  have hs : (Ty.map (Ty.basic k) (Ty.basic v)).toStr =
      'm' :: 'a' :: 'p' :: '[' :: (k ++ ']' :: '(' :: (v ++ [ ')' ])) := by
    show ((("map[".toList ++ k) ++ "](".toList) ++ v) ++ ")".toList = _
    simp only [List.append_assoc]
    rfl
  rw [hs, parseType]
  rw [parseTypeF]
  have htwu : trimLeftWS (k ++ ']' :: '(' :: (v ++ [ ')' ])) =
      k ++ ']' :: '(' :: (v ++ [ ')' ]) := by
    cases k with
    | nil =>
        simp only [List.nil_append]
        exact trimLeftWS_cons_nonspace _ _ (by decide)
    | cons c kt =>
        simp only [List.cons_append]
        exact trimLeftWS_cons_nonspace _ _
          ((nameChar_not_special c (hk.1 c (by simp))).2.2.2.2.2.2)
  have hm1 : matchPrefix ('m' :: 'a' :: 'p' :: '[' :: (k ++ ']' :: '(' :: (v ++ [ ')' ])))
      litArr = ('m' :: 'a' :: 'p' :: '[' :: (k ++ ']' :: '(' :: (v ++ [ ')' ])), false) := rfl
  have hm2 : matchPrefix ('m' :: 'a' :: 'p' :: '[' :: (k ++ ']' :: '(' :: (v ++ [ ')' ])))
      litChan = ('m' :: 'a' :: 'p' :: '[' :: (k ++ ']' :: '(' :: (v ++ [ ')' ])), false) := rfl
  have hm3 : matchPrefix ('m' :: 'a' :: 'p' :: '[' :: (k ++ ']' :: '(' :: (v ++ [ ')' ])))
      litMap = (k ++ ']' :: '(' :: (v ++ [ ')' ]), true) := by
    rw [matchPrefix]
    have hpre : litMap.isPrefixOf
        ('m' :: 'a' :: 'p' :: '[' :: (k ++ ']' :: '(' :: (v ++ [ ')' ]))) = true := by
      rw [show (litMap : Str) = ['m', 'a', 'p', '['] from rfl]
      simp [List.isPrefixOf]
    rw [hpre]
    rw [if_pos rfl]
    rw [show ('m' :: 'a' :: 'p' :: '[' :: (k ++ ']' :: '(' :: (v ++ [ ')' ]))).drop
      litMap.length = k ++ ']' :: '(' :: (v ++ [ ')' ]) from rfl]
    rw [htwu]
  have hkey : parseTypeF
      ('m' :: 'a' :: 'p' :: '[' :: (k ++ ']' :: '(' :: (v ++ [ ')' ]))).length
      (k ++ ']' :: '(' :: (v ++ [ ')' ])) =
      ⟨none, k ++ ']' :: '(' :: (v ++ [ ')' ]), true⟩ := by
    have hl : ('m' :: 'a' :: 'p' :: '[' :: (k ++ ']' :: '(' :: (v ++ [ ')' ]))).length =
        (k ++ ']' :: '(' :: (v ++ [ ')' ])).length + 3 + 1 := by
      simp only [List.length_cons]
    rw [hl]
    exact parseTypeF_mapInput_err _ k v hk hv
  have hm4 : matchPrefix ('m' :: 'a' :: 'p' :: '[' :: (k ++ ']' :: '(' :: (v ++ [ ')' ])))
      litStar = ('m' :: 'a' :: 'p' :: '[' :: (k ++ ']' :: '(' :: (v ++ [ ')' ])), false) := rfl
  have hsplit : 'm' :: 'a' :: 'p' :: '[' :: (k ++ ']' :: '(' :: (v ++ [ ')' ])) =
      ('m' :: 'a' :: 'p' :: '[' :: (k ++ ']' :: '(' :: v)) ++ [ ')' ] := by
    simp only [List.cons_append, List.append_assoc]
  have hd2s : (matchDelims ('m' :: 'a' :: 'p' :: '[' :: (k ++ ']' :: '(' :: (v ++ [ ')' ])))
      litOpen litClose).2 = false := by
    rw [hsplit]
    exact matchDelims_unbalanced _ (by rw [← hsplit]; rfl)
  simp only [hm1, hm2, hm3, hkey, hm4]
  simp [hd2s]

/-- C1 (corrected): the render-then-parse round trip does not hold for
every type: map types are the exception — `parseType` rejects the
canonical map rendering `map[k](v)` because `matchDelims` only strips
outermost parenthesis runs and reports the lone trailing `)` as
unbalanced.  The round trip does hold for leaf types (plain and
package-qualified names over `parseName`'s alphabet that do not start
with the reserved word `chan`) and for the unary constructors `[](t)`,
`chan (t)` and `*(t)` over such leaves, while for every map over plain
names the parse of `map[k](v)` reports an error. -/
theorem type_render_roundtrip_amended :
    (∀ t, Leafy t → roundTrips t) ∧
    (∀ t, Leafy t →
      roundTrips (Ty.array t) ∧ roundTrips (Ty.chan t) ∧ roundTrips (Ty.pointer t)) ∧
    (∀ k v, goodName k → goodName v →
      (parseType (Ty.map (Ty.basic k) (Ty.basic v)).toStr).err = true) := by
  refine ⟨?_, ?_, parse_map_render_err⟩
  · intro t h
    show parseType t.toStr = ⟨some t, [], false⟩
    rw [parseType]
    exact parseTypeF_leaf _ t h
  · exact fun t h =>
      ⟨roundTrips_array t h, roundTrips_chan t h, roundTrips_pointer t h⟩

/-- C1 counterexample: the concrete map type with key `k` and value `v`
renders to `map[k](v)`, on which `parseType` reports an error, so this
type does not round-trip — refuting the claim's `in particular this
holds when t is a Map`. -/
theorem type_render_roundtrip_map_fails :
    (parseType (Ty.map (Ty.basic ("k".toList)) (Ty.basic ("v".toList))).toStr).err
      = true ∧
    ¬ roundTrips (Ty.map (Ty.basic ("k".toList)) (Ty.basic ("v".toList))) := by
  refine ⟨by decide, ?_⟩
  unfold roundTrips
  decide

/-- C1 witness: the amended theorem applied at the concrete types
`int`, `pkg.T`, `[](int)`, `chan (int)`, `*(int)` and `map[k](v)`. -/
theorem type_render_roundtrip_amended_witness :
    roundTrips (Ty.basic ("int".toList)) ∧
    roundTrips (Ty.qualified ("pkg".toList) (Ty.basic ("T".toList))) ∧
    roundTrips (Ty.array (Ty.basic ("int".toList))) ∧
    roundTrips (Ty.chan (Ty.basic ("int".toList))) ∧
    roundTrips (Ty.pointer (Ty.basic ("int".toList))) ∧
    (parseType (Ty.map (Ty.basic ("k".toList)) (Ty.basic ("v".toList))).toStr).err
      = true := by
  have hint : goodName ("int".toList) :=
    ⟨by unfold goodNameChars; decide, by decide⟩
  have hpkg : goodName ("pkg".toList) :=
    ⟨by unfold goodNameChars; decide, by decide⟩
  have hT : goodNameChars ("T".toList) := by
    unfold goodNameChars; decide
  have hk : goodName ("k".toList) :=
    ⟨by unfold goodNameChars; decide, by decide⟩
  have hv : goodName ("v".toList) :=
    ⟨by unfold goodNameChars; decide, by decide⟩
  have hLint : Leafy (Ty.basic ("int".toList)) := Or.inl ⟨_, rfl, hint⟩
  obtain ⟨h1, h2, h3⟩ := type_render_roundtrip_amended
  exact ⟨h1 _ hLint, h1 _ (Or.inr ⟨_, _, rfl, hpkg, hT⟩),
    (h2 _ hLint).1, (h2 _ hLint).2.1, (h2 _ hLint).2.2,
    h3 _ _ hk hv⟩
